import Mathlib

/-!
# Verification of the tstorage partitioned time-series engine

A shallow embedding of the core of the `tstorage` repository
(`memory_partition.go`, the partition list, the WAL interface) together with
proofs about it.  Go `int64` values are modelled as `Int`; the generic value
payload `T` is a type parameter `V`; Go slices become `List`; the `sync`
primitives carry no sequential content and are dropped; effects (the WAL,
the series encoder, `time.Now`) are passed in explicitly as parameters.
A Go run-time panic (an out-of-range slice expression) is modelled by an
`Option`-valued result, `none` standing for the panic.
-/

set_option linter.unusedVariables false

namespace TStorage

/-- A single observation, `DataPoint` from `tstorage.go`: an `int64` timestamp
together with a generic value. -/
structure DataPoint (V : Type) where
  timestamp : Int
  value : V
  deriving DecidableEq

/-- A `Label`, a name/value pair of strings. -/
structure Label where
  name : String
  value : String
  deriving DecidableEq

/-- A `Row`: a metric name, an optional label set and a data point. -/
structure Row (V : Type) where
  metric : String
  labels : List Label
  dataPoint : DataPoint V
  deriving DecidableEq

/-- Modelled from the spec: `marshalMetricName` (its file, `metric.go`, is not
among the sources; only callers are).  The spec requires a stable, injective,
collision-free encoding of `(metric, labels)` into a key; the claims below use
it only as an opaque keying function. -/
def marshalMetricName (metric : String) (labels : List Label) : String :=
  labels.foldl (fun acc l => acc ++ ";" ++ l.name ++ "=" ++ l.value) metric

/-- The `memoryMetric` struct of `memory_partition.go`.  The `sync.RWMutex`
field is omitted (no sequential content). -/
structure MemoryMetric (V : Type) where
  name : String
  size : Int
  minTimestamp : Int
  maxTimestamp : Int
  points : List (DataPoint V)
  outOfOrderPoints : List (DataPoint V)
  deriving DecidableEq

/-- `memoryMetric.insertPoint` from `memory_partition.go`.  The `none` branch
of the match corresponds to the out-of-range index `m.points[size-1]`, on
which Go would panic; it is unreachable whenever `size = points.length`. -/
def MemoryMetric.insertPoint {V : Type} (m : MemoryMetric V) (point : DataPoint V) :
    MemoryMetric V :=
  let size := m.size
  if size = 0 then
    { m with points := m.points ++ [point],
             minTimestamp := point.timestamp,
             maxTimestamp := point.timestamp,
             size := m.size + 1 }
  else
    match m.points[(size - 1).toNat]? with
    | some last =>
      if last.timestamp < point.timestamp then
        { m with points := m.points ++ [point],
                 maxTimestamp := point.timestamp,
                 size := m.size + 1 }
      else
        { m with outOfOrderPoints := m.outOfOrderPoints ++ [point] }
    | none => m

/-- The documented invariant of a series inside a memory partition
(`memory_partition.go`, comments on `memoryMetric`): `points` is kept in
ascending timestamp order, `size` counts the in-order points, and
`minTimestamp`/`maxTimestamp` are the first/last in-order timestamps. -/
def MemoryMetric.Inv {V : Type} (m : MemoryMetric V) : Prop :=
  m.size = m.points.length
  ∧ m.points.Pairwise (fun a b => a.timestamp ≤ b.timestamp)
  ∧ (m.points = []
      ∨ ((m.points.map (·.timestamp)).headD 0 = m.minTimestamp
          ∧ (m.points.map (·.timestamp)).getLastD 0 = m.maxTimestamp))

section MetricLemmas

variable {V : Type}

lemma tsAscending_le_getLast {l : List (DataPoint V)}
    (h : l.Pairwise (fun a b => a.timestamp ≤ b.timestamp))
    {b : DataPoint V} (hb : l.getLast? = some b) :
    ∀ a ∈ l, a.timestamp ≤ b.timestamp := by
  induction l with
  | nil => simp at hb
  | cons x xs ih =>
    intro a ha
    cases xs with
    | nil =>
      simp at hb ha
      subst hb ha
      exact le_refl _
    | cons y ys =>
      rw [List.getLast?_cons_cons] at hb
      have hp := List.pairwise_cons.mp h
      rcases List.mem_cons.mp ha with rfl | ha'
      · have hne : (y :: ys) ≠ [] := by simp
        rw [List.getLast?_eq_getLast_of_ne_nil hne] at hb
        obtain rfl : b = (y :: ys).getLast hne := by
          injection hb with h'
          exact h'.symm
        exact hp.1 _ (List.getLast_mem hne)
      · exact ih hp.2 hb a ha'

lemma getLast?_eq_index {l : List (DataPoint V)} (hne : l ≠ []) :
    l[l.length - 1]? = l.getLast? := by
  rw [List.getLast?_eq_getLast_of_ne_nil hne, List.getElem?_eq_getElem (by
    have := List.length_pos.mpr hne; omega)]
  simp [List.getLast_eq_getElem]

lemma headD_append_left {α : Type _} (l₁ l₂ : List α) (d : α) (h : l₁ ≠ []) :
    (l₁ ++ l₂).headD d = l₁.headD d := by
  cases l₁ with
  | nil => exact absurd rfl h
  | cons x xs => rfl

end MetricLemmas

/-- C6: `memoryMetric.insertPoint` preserves the series invariant, and a point
whose timestamp is not strictly above the last in-order timestamp goes to
`outOfOrderPoints`, leaving `points`, `minTimestamp` and `maxTimestamp`
unchanged. -/
theorem c6_insertPoint_preserves_invariant {V : Type}
    (m : MemoryMetric V) (p : DataPoint V) (h : m.Inv) :
    (m.insertPoint p).Inv
    ∧ (∀ lastP ∈ m.points.getLast?, ¬ lastP.timestamp < p.timestamp →
        m.insertPoint p
          = { m with outOfOrderPoints := m.outOfOrderPoints ++ [p] }) := by
  obtain ⟨hsz, hasc, hmm⟩ := h
  by_cases h0 : m.size = 0
  · -- first insertion: `points` must be empty
    have hnil : m.points = [] := by
      have : m.points.length = 0 := by omega
      exact List.length_eq_zero.mp this
    constructor
    · simp only [MemoryMetric.insertPoint, if_pos h0, MemoryMetric.Inv, hnil]
      refine ⟨by simp [hsz, hnil], by simp, Or.inr (by simp)⟩
    · intro lastP hlast
      rw [hnil] at hlast; simp at hlast
  · -- non-empty series
    have hne : m.points ≠ [] := by
      intro hc; rw [hc] at hsz; simp at hsz; exact h0 hsz
    have hlen : 1 ≤ m.points.length := List.length_pos.mpr hne
    have hidx : (m.size - 1).toNat = m.points.length - 1 := by omega
    obtain ⟨lastP, hlastP⟩ := List.getLast?_isSome.mpr hne |> Option.isSome_iff_exists.mp
    have hget : m.points[(m.size - 1).toNat]? = some lastP := by
      rw [hidx, getLast?_eq_index hne, hlastP]
    by_cases hlt : lastP.timestamp < p.timestamp
    · -- in-order append
      constructor
      · simp only [MemoryMetric.insertPoint, if_neg h0, hget]
        rw [if_pos hlt]
        refine ⟨by simp [hsz], ?_, Or.inr ⟨?_, ?_⟩⟩
        · rw [List.pairwise_append]
          refine ⟨hasc, by simp, ?_⟩
          intro a ha b hb
          obtain rfl : b = p := by simpa using hb
          exact le_of_lt (lt_of_le_of_lt (tsAscending_le_getLast hasc hlastP a ha) hlt)
        · rcases hmm with hc | ⟨hmin, _⟩
          · exact absurd hc hne
          · rw [List.map_append, headD_append_left _ _ _ (by simpa using hne)]
            exact hmin
        · rw [List.map_append]
          exact List.getLastD_concat _ _ _
      · intro lastP' hlast' hnlt
        rw [hlastP] at hlast'
        obtain rfl : lastP = lastP' := by simpa using hlast'
        exact absurd hlt hnlt
    · -- out-of-order
      have heq : m.insertPoint p
          = { m with outOfOrderPoints := m.outOfOrderPoints ++ [p] } := by
        simp only [MemoryMetric.insertPoint, if_neg h0, hget]
        rw [if_neg hlt]
      refine ⟨?_, ?_⟩
      · rw [heq]
        exact ⟨hsz, hasc, hmm⟩
      · intro lastP' hlast' hnlt
        exact heq

/-- A small concrete series used by witnesses: one in-order point at
timestamp 2. -/
def sampleMetric : MemoryMetric Int where
  name := "m1"
  size := 1
  minTimestamp := 2
  maxTimestamp := 2
  points := [⟨2, 1⟩]
  outOfOrderPoints := []

lemma sampleMetric_inv : sampleMetric.Inv :=
  ⟨by simp [sampleMetric], by simp [sampleMetric], Or.inr (by simp [sampleMetric])⟩

/-- Witness for C6 at a concrete series and point. -/
theorem c6_insertPoint_witness :
    sampleMetric.Inv ∧ (sampleMetric.insertPoint ⟨3, 5⟩).Inv :=
  ⟨sampleMetric_inv, (c6_insertPoint_preserves_invariant _ ⟨3, 5⟩ sampleMetric_inv).1⟩

/-! ## Binary search (`sort.Search`) and Go slice expressions -/

/-- The loop of Go's `sort.Search` (package `sort`): binary search on the
interval `[i, j)` for the least index at which `f` holds, assuming `f` is
monotone.  The `fuel` argument only provides structural termination; since
`j - i` shrinks on every iteration, `fuel = j - i` steps always suffice. -/
def goSearchAux (f : Nat → Bool) : Nat → Nat → Nat → Nat
  | 0, i, _ => i
  | fuel + 1, i, j =>
    if i < j then
      if f ((i + j) / 2) then goSearchAux f fuel i ((i + j) / 2)
      else goSearchAux f fuel ((i + j) / 2 + 1) j
    else i

/-- Go's `sort.Search n f`. -/
def sortSearch (n : Nat) (f : Nat → Bool) : Nat := goSearchAux f n 0 n

/-- A Go slice expression `xs[lo:hi]`.  `none` models the run-time panic Go
raises when `lo > hi` or `hi > len(xs)`. -/
def goSlice {α : Type _} (xs : List α) (lo hi : Nat) : Option (List α) :=
  if lo ≤ hi ∧ hi ≤ xs.length then some ((xs.take hi).drop lo) else none

/-- The predicate `m.points[i].Timestamp >= c` passed to `sort.Search` by
`selectPoints`; out-of-range reads (unreachable while `size = points.length`)
yield `false`. -/
def tsGe {V : Type} (l : List (DataPoint V)) (c : Int) (i : Nat) : Bool :=
  match l[i]? with
  | some p => decide (c ≤ p.timestamp)
  | none => false

/-- `memoryMetric.selectPoints` from `memory_partition.go` (the atomic loads
of `size`, `minTimestamp` and `maxTimestamp` are pure field reads here).  The
result is `none` exactly when the final slice expression
`m.points[startIdx:endIdx]` panics at run time. -/
def MemoryMetric.selectPoints {V : Type} (m : MemoryMetric V) (start e : Int) :
    Option (List (DataPoint V)) :=
  if e ≤ m.minTimestamp then some []
  else
    goSlice m.points
      (if start ≤ m.minTimestamp then 0
        else sortSearch m.size.toNat (tsGe m.points start))
      (if e ≥ m.maxTimestamp then m.size.toNat
        else sortSearch m.size.toNat (tsGe m.points e))

section SearchLemmas

/-- Specification of the `sort.Search` loop: on a monotone predicate it finds
the least index of `[0, n)` where the predicate holds (or `n`). -/
lemma goSearchAux_spec (f : Nat → Bool) (n : Nat)
    (hmono : ∀ a b, a ≤ b → b < n → f a = true → f b = true) :
    ∀ fuel i j, j - i ≤ fuel → i ≤ j → j ≤ n →
      (∀ k, k < i → f k = false) → (∀ k, j ≤ k → k < n → f k = true) →
      i ≤ goSearchAux f fuel i j ∧ goSearchAux f fuel i j ≤ j
        ∧ (∀ k, k < goSearchAux f fuel i j → f k = false)
        ∧ (∀ k, goSearchAux f fuel i j ≤ k → k < n → f k = true) := by
  intro fuel
  induction fuel with
  | zero =>
    intro i j hfuel hij hjn hlo hhi
    have hji : j = i := by omega
    subst hji
    exact ⟨le_refl _, le_refl _, hlo, fun k hk hkn => hhi k hk hkn⟩
  | succ fuel ih =>
    intro i j hfuel hij hjn hlo hhi
    simp only [goSearchAux]
    by_cases hij' : i < j
    · rw [if_pos hij']
      by_cases hf : f ((i + j) / 2) = true
      · rw [if_pos hf]
        obtain ⟨h1, h2, h3, h4⟩ := ih i ((i + j) / 2) (by omega) (by omega) (by omega)
          hlo (fun k hk hkn => hmono ((i + j) / 2) k hk hkn hf)
        exact ⟨h1, by omega, h3, h4⟩
      · rw [if_neg hf]
        have hlo' : ∀ k, k < (i + j) / 2 + 1 → f k = false := by
          intro k hk
          rcases Nat.lt_or_ge k i with hki | hki
          · exact hlo k hki
          · cases hfk : f k
            · rfl
            · exact absurd (hmono k ((i + j) / 2) (by omega) (by omega) hfk)
                (by simpa using hf)
        obtain ⟨h1, h2, h3, h4⟩ := ih ((i + j) / 2 + 1) j (by omega) (by omega) hjn
          hlo' hhi
        exact ⟨by omega, h2, h3, h4⟩
    · rw [if_neg hij']
      have hji : j = i := by omega
      subst hji
      exact ⟨le_refl _, le_refl _, hlo, fun k hk hkn => hhi k hk hkn⟩

variable {V : Type}

/-- The search predicate is monotone along an ascending points array. -/
lemma tsGe_mono {l : List (DataPoint V)}
    (hasc : l.Pairwise (fun a b => a.timestamp ≤ b.timestamp)) (c : Int) :
    ∀ a b, a ≤ b → b < l.length → tsGe l c a = true → tsGe l c b = true := by
  intro a b hab hb hfa
  have ha : a < l.length := by omega
  unfold tsGe at hfa ⊢
  rw [List.getElem?_eq_getElem ha] at hfa
  rw [List.getElem?_eq_getElem hb]
  simp only [decide_eq_true_eq] at hfa ⊢
  rcases Nat.lt_or_ge a b with hlt | hge
  · exact le_trans hfa (List.pairwise_iff_getElem.mp hasc a b ha hb hlt)
  · have : a = b := by omega
    subst this
    exact hfa

/-- An index inside `takeWhile q l` points at an element of `l` satisfying
`q`. -/
lemma takeWhile_index_true {α : Type _} (q : α → Bool) (l : List α) :
    ∀ {k : Nat}, k < (l.takeWhile q).length → ∃ x, l[k]? = some x ∧ q x = true := by
  induction l with
  | nil => intro k hk; simp at hk
  | cons a as ih =>
    intro k hk
    by_cases hqa : q a
    · rw [List.takeWhile_cons_of_pos hqa] at hk
      cases k with
      | zero => exact ⟨a, by simp, hqa⟩
      | succ k' =>
        obtain ⟨x, h1, h2⟩ := ih (by simpa using hk)
        exact ⟨x, by simpa using h1, h2⟩
    · rw [List.takeWhile_cons_of_neg hqa] at hk
      simp at hk

/-- The element of `l` just past `takeWhile q l` falsifies `q`. -/
lemma takeWhile_boundary_false {α : Type _} (q : α → Bool) (l : List α)
    (hk : (l.takeWhile q).length < l.length) :
    ∃ x, l[(l.takeWhile q).length]? = some x ∧ q x = false := by
  induction l with
  | nil => simp at hk
  | cons a as ih =>
    by_cases hqa : q a
    · rw [List.takeWhile_cons_of_pos hqa] at hk ⊢
      obtain ⟨x, h1, h2⟩ := ih (by simpa using hk)
      exact ⟨x, by simpa using h1, h2⟩
    · rw [List.takeWhile_cons_of_neg hqa]
      exact ⟨a, by simp, by simpa using hqa⟩

/-- `sort.Search` over an ascending array returns the length of the maximal
prefix of timestamps strictly below the bound. -/
lemma sortSearch_eq_takeWhile_length {l : List (DataPoint V)}
    (hasc : l.Pairwise (fun a b => a.timestamp ≤ b.timestamp)) (c : Int) :
    sortSearch l.length (tsGe l c)
      = (l.takeWhile (fun p => decide (p.timestamp < c))).length := by
  have htle : (l.takeWhile (fun p => decide (p.timestamp < c))).length ≤ l.length :=
    (List.takeWhile_prefix _).length_le
  have hF1 : ∀ k, k < (l.takeWhile (fun p => decide (p.timestamp < c))).length →
      tsGe l c k = false := by
    intro k hk
    obtain ⟨x, h1, h2⟩ := takeWhile_index_true _ l hk
    unfold tsGe
    rw [h1]
    simp only [decide_eq_true_eq] at h2
    simp only [decide_eq_false_iff_not]
    omega
  have hF2 : (l.takeWhile (fun p => decide (p.timestamp < c))).length < l.length →
      tsGe l c (l.takeWhile (fun p => decide (p.timestamp < c))).length = true := by
    intro hlt
    obtain ⟨x, h1, h2⟩ := takeWhile_boundary_false _ l hlt
    unfold tsGe
    rw [h1]
    simp only [decide_eq_false_iff_not] at h2
    simp only [decide_eq_true_eq]
    omega
  obtain ⟨h1, h2, h3, h4⟩ := goSearchAux_spec (tsGe l c) l.length (tsGe_mono hasc c)
    l.length 0 l.length (by omega) (by omega) (le_refl _)
    (fun k hk => absurd hk (Nat.not_lt_zero k))
    (fun k hk hkn => absurd hkn (Nat.not_lt.mpr hk))
  show goSearchAux (tsGe l c) l.length 0 l.length = _
  rcases Nat.lt_trichotomy (goSearchAux (tsGe l c) l.length 0 l.length)
      (l.takeWhile (fun p => decide (p.timestamp < c))).length with hlt | heq | hgt
  · have hfalse := hF1 _ hlt
    have htrue := h4 _ (le_refl _) (by omega)
    rw [hfalse] at htrue
    exact absurd htrue (by simp)
  · exact heq
  · have hfalse := h3 _ hgt
    have htrue := hF2 (by omega)
    rw [hfalse] at htrue
    exact absurd htrue (by simp)

/-- On an ascending array, `takeWhile (ts < c)` is `filter (ts < c)`. -/
lemma takeWhile_lt_eq_filter {l : List (DataPoint V)}
    (hasc : l.Pairwise (fun a b => a.timestamp ≤ b.timestamp)) (c : Int) :
    l.takeWhile (fun p => decide (p.timestamp < c))
      = l.filter (fun p => decide (p.timestamp < c)) := by
  induction l with
  | nil => rfl
  | cons x xs ih =>
    have hp := List.pairwise_cons.mp hasc
    by_cases hx : x.timestamp < c
    · rw [List.takeWhile_cons_of_pos (by simpa using hx),
        List.filter_cons_of_pos (by simpa using hx), ih hp.2]
    · rw [List.takeWhile_cons_of_neg (by simpa using hx),
        List.filter_cons_of_neg (by simpa using hx)]
      symm
      rw [List.filter_eq_nil_iff]
      intro p hpmem
      have h1 := hp.1 p hpmem
      simp only [decide_eq_true_eq]
      omega

/-- On an ascending array, `dropWhile (ts < c)` is `filter (c ≤ ts)`. -/
lemma dropWhile_lt_eq_filter {l : List (DataPoint V)}
    (hasc : l.Pairwise (fun a b => a.timestamp ≤ b.timestamp)) (c : Int) :
    l.dropWhile (fun p => decide (p.timestamp < c))
      = l.filter (fun p => decide (c ≤ p.timestamp)) := by
  induction l with
  | nil => rfl
  | cons x xs ih =>
    have hp := List.pairwise_cons.mp hasc
    by_cases hx : x.timestamp < c
    · rw [List.dropWhile_cons_of_pos (by simpa using hx),
        List.filter_cons_of_neg (by simp only [decide_eq_true_eq]; omega), ih hp.2]
    · rw [List.dropWhile_cons_of_neg (by simpa using hx),
        List.filter_cons_of_pos (by simp only [decide_eq_true_eq]; omega)]
      congr 1
      symm
      rw [List.filter_eq_self]
      intro p hpmem
      have h1 := hp.1 p hpmem
      simp only [decide_eq_true_eq]
      omega

/-- Splitting the count of `ts < hi` at an intermediate bound `lo ≤ hi`. -/
lemma countP_lt_split (l : List (DataPoint V)) (lo hi : Int) (h : lo ≤ hi) :
    l.countP (fun p => decide (p.timestamp < hi))
      = l.countP (fun p => decide (p.timestamp < lo))
        + l.countP (fun p => decide (lo ≤ p.timestamp) && decide (p.timestamp < hi)) := by
  induction l with
  | nil => rfl
  | cons x xs ih =>
    simp only [List.countP_cons, ih]
    by_cases h1 : x.timestamp < hi <;> by_cases h2 : x.timestamp < lo
    · rw [if_pos (by simpa using h1), if_pos (by simpa using h2),
        if_neg (by simp only [Bool.and_eq_true, decide_eq_true_eq, not_and]; omega)]
      omega
    · rw [if_pos (by simpa using h1), if_neg (by simpa using h2),
        if_pos (by simp only [Bool.and_eq_true, decide_eq_true_eq]; omega)]
      omega
    · exfalso
      omega
    · rw [if_neg (by simpa using h1), if_neg (by simpa using h2),
        if_neg (by simp only [Bool.and_eq_true, decide_eq_true_eq, not_and]; omega)]
      omega

/-- Dropping the length of `takeWhile` is `dropWhile`. -/
lemma drop_takeWhile_length {α : Type _} (q : α → Bool) (l : List α) :
    l.drop (l.takeWhile q).length = l.dropWhile q := by
  induction l with
  | nil => rfl
  | cons x xs ih =>
    by_cases hx : q x
    · rw [List.takeWhile_cons_of_pos hx, List.dropWhile_cons_of_pos hx]
      simpa using ih
    · rw [List.takeWhile_cons_of_neg hx, List.dropWhile_cons_of_neg hx]
      simp

end SearchLemmas

/-- Full characterization of `selectPoints` on a series satisfying the
invariant.  The upper bound behaves exclusively only while
`end < maxTimestamp`; once `end ≥ maxTimestamp` the whole tail from
`startIdx` is returned (so a point with timestamp `end = maxTimestamp` is
included), and for inverted ranges with a point in `[end, start)` the slice
bounds invert, which panics (`none`). -/
lemma selectPoints_spec {V : Type} (m : MemoryMetric V) (hinv : m.Inv) (start e : Int) :
    m.selectPoints start e =
      if e ≤ m.minTimestamp then some []
      else if e ≥ m.maxTimestamp then
        some (m.points.filter (fun p => decide (start ≤ p.timestamp)))
      else if m.points.any (fun p => decide (e ≤ p.timestamp) && decide (p.timestamp < start)) then
        none
      else
        some (m.points.filter (fun p =>
          decide (start ≤ p.timestamp) && decide (p.timestamp < e))) := by
  obtain ⟨hsz, hasc, hmm⟩ := hinv
  by_cases hemin : e ≤ m.minTimestamp
  · rw [MemoryMetric.selectPoints, if_pos hemin, if_pos hemin]
  · rw [MemoryMetric.selectPoints, if_neg hemin, if_neg hemin]
    have hlen : m.size.toNat = m.points.length := by omega
    have hstart : (if start ≤ m.minTimestamp then 0
        else sortSearch m.size.toNat (tsGe m.points start))
        = (m.points.takeWhile (fun p => decide (p.timestamp < start))).length := by
      by_cases hs : start ≤ m.minTimestamp
      · rw [if_pos hs]
        cases hpts : m.points with
        | nil => simp [hpts]
        | cons x xs =>
          rcases hmm with hc | ⟨hmin, _⟩
          · rw [hpts] at hc
            simp at hc
          · rw [hpts] at hmin
            simp only [List.map_cons, List.headD_cons] at hmin
            rw [List.takeWhile_cons_of_neg]
            · simp
            · simp only [decide_eq_true_eq]
              omega
      · rw [if_neg hs, hlen]
        exact sortSearch_eq_takeWhile_length hasc start
    rw [hstart]
    by_cases hemax : e ≥ m.maxTimestamp
    · rw [if_pos hemax, if_pos hemax, hlen]
      rw [goSlice, if_pos ⟨(List.takeWhile_prefix _).length_le, le_refl _⟩]
      rw [List.take_length, drop_takeWhile_length]
      rw [dropWhile_lt_eq_filter hasc start]
    · rw [if_neg hemax, if_neg hemax, hlen]
      rw [sortSearch_eq_takeWhile_length hasc e]
      have htws : (m.points.takeWhile (fun p => decide (p.timestamp < start))).length
          = m.points.countP (fun p => decide (p.timestamp < start)) := by
        rw [takeWhile_lt_eq_filter hasc, List.countP_eq_length_filter]
      have htwe : (m.points.takeWhile (fun p => decide (p.timestamp < e))).length
          = m.points.countP (fun p => decide (p.timestamp < e)) := by
        rw [takeWhile_lt_eq_filter hasc, List.countP_eq_length_filter]
      by_cases hany : m.points.any
          (fun p => decide (e ≤ p.timestamp) && decide (p.timestamp < start)) = true
      · rw [if_pos hany]
        obtain ⟨x, hx1, hx2⟩ := List.any_eq_true.mp hany
        simp only [Bool.and_eq_true, decide_eq_true_eq] at hx2
        have hwit : 0 < m.points.countP
            (fun p => decide (e ≤ p.timestamp) && decide (p.timestamp < start)) := by
          rw [List.countP_pos_iff]
          exact ⟨x, hx1, by simp only [Bool.and_eq_true, decide_eq_true_eq]; exact hx2⟩
        have hsplit := countP_lt_split m.points e start (by omega)
        rw [goSlice, if_neg]
        intro hc
        obtain ⟨hc1, hc2⟩ := hc
        omega
      · rw [if_neg hany]
        have hany' : ∀ x ∈ m.points, ¬(e ≤ x.timestamp ∧ x.timestamp < start) := by
          intro x hx hcon
          apply hany
          rw [List.any_eq_true]
          exact ⟨x, hx, by simp only [Bool.and_eq_true, decide_eq_true_eq]; exact hcon⟩
        have hle2 : m.points.countP (fun p => decide (p.timestamp < start))
            ≤ m.points.countP (fun p => decide (p.timestamp < e)) := by
          apply List.countP_mono_left
          intro x hx hxs
          simp only [decide_eq_true_eq] at hxs ⊢
          by_contra hcon
          exact hany' x hx ⟨by omega, hxs⟩
        rw [goSlice, if_pos ⟨by omega, (List.takeWhile_prefix _).length_le⟩]
        congr 1
        rw [show m.points.take
              ((m.points.takeWhile (fun p => decide (p.timestamp < e))).length)
            = m.points.takeWhile (fun p => decide (p.timestamp < e)) from
          (List.prefix_iff_eq_take.mp (List.takeWhile_prefix _)).symm]
        have hfasc : (m.points.takeWhile (fun p => decide (p.timestamp < e))).Pairwise
            (fun a b => a.timestamp ≤ b.timestamp) :=
          List.Pairwise.sublist (List.takeWhile_prefix _).sublist hasc
        have hlen2 : (m.points.takeWhile (fun p => decide (p.timestamp < start))).length
            = ((m.points.takeWhile (fun p => decide (p.timestamp < e))).takeWhile
                (fun p => decide (p.timestamp < start))).length := by
          rw [takeWhile_lt_eq_filter hfasc start,
            takeWhile_lt_eq_filter hasc e, List.filter_filter]
          rw [htws, List.countP_eq_length_filter]
          congr 1
          apply List.filter_congr
          intro x hx
          by_cases hxlt : x.timestamp < start
          · have hxe : x.timestamp < e := by
              by_contra hcon
              exact hany' x hx ⟨by omega, hxlt⟩
            simp [hxlt, hxe]
          · simp [hxlt]
        rw [hlen2, drop_takeWhile_length, dropWhile_lt_eq_filter hfasc start,
          takeWhile_lt_eq_filter hasc e, List.filter_filter]

/-- C1 (amended): on a series satisfying the invariant, `selectPoints`
returns the ascending in-order points with `start ≤ ts < end` only while
`end < maxTimestamp` (or `end ≤ minTimestamp`, where it returns `[]`).  When
`end ≥ maxTimestamp > minTimestamp` the upper bound is not exclusive: all
points with `start ≤ ts` are returned, including one with `ts = end =
maxTimestamp`.  For inverted ranges (`end < start`) with an in-order point in
`[end, start)`, the slice bounds invert and the call panics instead of
returning empty. -/
theorem c1_selectPoints_range {V : Type} (m : MemoryMetric V) (hinv : m.Inv)
    (start e : Int) :
    m.selectPoints start e =
      if e ≤ m.minTimestamp then some []
      else if e ≥ m.maxTimestamp then
        some (m.points.filter (fun p => decide (start ≤ p.timestamp)))
      else if m.points.any (fun p => decide (e ≤ p.timestamp) && decide (p.timestamp < start)) then
        none
      else
        some (m.points.filter (fun p =>
          decide (start ≤ p.timestamp) && decide (p.timestamp < e))) :=
  selectPoints_spec m hinv start e

/-- The series refuting C1 as stated: ascending in-order points at
timestamps 1 and 5. -/
def c1Metric : MemoryMetric Int where
  name := "m1"
  size := 2
  minTimestamp := 1
  maxTimestamp := 5
  points := [⟨1, 0⟩, ⟨5, 0⟩]
  outOfOrderPoints := []

/-- C1 counterexample: on the ascending series with timestamps `[1, 5]`, the
query `(start, end) = (2, 5)` returns the point at timestamp `5` even though
`end` is supposed to be exclusive (here `end ≤ start` even demands an empty
result): `endIdx` is short-circuited to `size` because `end ≥ maxTimestamp`. -/
theorem c1_counterexample :
    c1Metric.Inv
    ∧ c1Metric.selectPoints 2 5 = some [⟨5, 0⟩]
    ∧ c1Metric.points.filter
        (fun p => decide (2 ≤ p.timestamp) && decide (p.timestamp < 5)) = []
    ∧ c1Metric.selectPoints 2 5
        ≠ some (c1Metric.points.filter
            (fun p => decide (2 ≤ p.timestamp) && decide (p.timestamp < 5))) := by
  refine ⟨⟨by decide, ?_, ?_⟩, by decide, by decide, by decide⟩
  · decide
  · decide

/-- Witness for C1 at a concrete series and query. -/
theorem c1_selectPoints_witness :
    sampleMetric.Inv ∧ sampleMetric.selectPoints 0 4 = some [⟨2, 1⟩] := by
  refine ⟨sampleMetric_inv, ?_⟩
  rw [c1_selectPoints_range sampleMetric sampleMetric_inv 0 4]
  decide

/-! ## The memory partition (`memoryPartition`) -/

/-- Lookup in the metrics map (`sync.Map.Load` keyed by the marshalled
metric name). -/
def mapLoad {V : Type} (ms : List (String × MemoryMetric V)) (k : String) :
    Option (MemoryMetric V) :=
  match ms with
  | [] => none
  | (k', v') :: rest => if k' = k then some v' else mapLoad rest k

/-- Update in the metrics map (`sync.Map.Store`): overwrite the binding in
place, or append a fresh one. -/
def mapStore {V : Type} (ms : List (String × MemoryMetric V)) (k : String)
    (v : MemoryMetric V) : List (String × MemoryMetric V) :=
  match ms with
  | [] => [(k, v)]
  | (k', v') :: rest => if k' = k then (k, v) :: rest else (k', v') :: mapStore rest k v

/-- The zero-valued series `getMetric` creates when the name is absent
(`memory_partition.go:131`). -/
def emptySeries {V : Type} (name : String) : MemoryMetric V where
  name := name
  size := 0
  minTimestamp := 0
  maxTimestamp := 0
  points := []
  outOfOrderPoints := []

/-- `memoryPartition.getMetric`: load-or-create.  Gives back the series and
the (possibly extended) metrics map. -/
def getMetricF {V : Type} (ms : List (String × MemoryMetric V)) (name : String) :
    MemoryMetric V × List (String × MemoryMetric V) :=
  match mapLoad ms name with
  | some mt => (mt, ms)
  | none => (emptySeries name, mapStore ms name (emptySeries name))

/-- The `memoryPartition` struct of `memory_partition.go`.  The WAL and the
clock (`toUnix(time.Now(), precision)`) are passed to `insertRows` as
parameters; `partitionDuration`/`timestampPrecision` play no role in the
claims below; the `sync.Once` latch is the boolean `onceFired`. -/
structure MemoryPartition (V : Type) where
  numPoints : Int
  minT : Int
  maxT : Int
  metrics : List (String × MemoryMetric V)
  onceFired : Bool
  deriving DecidableEq

/-- A fresh memory partition (`newMemoryPartition`): all-zero fields. -/
def newMemoryPartition (V : Type) : MemoryPartition V :=
  { numPoints := 0, minT := 0, maxT := 0, metrics := [], onceFired := false }

/-- `memoryPartition.minTimestamp`. -/
def MemoryPartition.minTimestamp {V : Type} (m : MemoryPartition V) : Int := m.minT

/-- `memoryPartition.maxTimestamp`. -/
def MemoryPartition.maxTimestamp {V : Type} (m : MemoryPartition V) : Int := m.maxT

/-- `memoryPartition.size`. -/
def MemoryPartition.size {V : Type} (m : MemoryPartition V) : Int := m.numPoints

/-- The two failure modes of `insertRows`: an empty batch
(`"no rows given"`) and a WAL append error
(`"failed to write to WAL"`). -/
inductive InsertErr where
  | noRows
  | walFail
  deriving DecidableEq

/-- `min := rows[0].Timestamp; for range rows { if ts < min { min = ts } }`
(the latch block of `insertRows`), folded from seed `d`. -/
def batchMinTs {V : Type} (rows : List (Row V)) (d : Int) : Int :=
  rows.foldl (fun mn r => if r.dataPoint.timestamp < mn then r.dataPoint.timestamp else mn) d

/-- `rows[0].Timestamp` (`0` for an empty batch, which never reaches the
code that reads it). -/
def firstTs {V : Type} (rows : List (Row V)) : Int :=
  match rows with
  | [] => 0
  | r :: _ => r.dataPoint.timestamp

/-- Accumulator of the row loop of `insertRows`: the metrics map, the
outdated-rows return list, the batch-local maximum timestamp and the number
of inserted rows. -/
structure InsertAcc (V : Type) where
  metrics : List (String × MemoryMetric V)
  outdated : List (Row V)
  maxTs : Int
  rowsNum : Int

/-- The row loop of `insertRows` (`memory_partition.go:81-97`).  `i` is the
row index, used only to index the clock `nowf` (one `time.Now()` call per
zero-timestamp row). -/
def insertLoop {V : Type} (minT : Int) (nowf : Nat → Int) :
    List (Row V) → Nat → InsertAcc V → InsertAcc V
  | [], _, st => st
  | r :: rest, i, st =>
    if r.dataPoint.timestamp < minT then
      insertLoop minT nowf rest (i + 1) { st with outdated := st.outdated ++ [r] }
    else
      insertLoop minT nowf rest (i + 1)
        { metrics :=
            (fun mtms => mapStore mtms.2 (marshalMetricName r.metric r.labels)
              (mtms.1.insertPoint
                ⟨if r.dataPoint.timestamp = 0 then nowf i else r.dataPoint.timestamp,
                 r.dataPoint.value⟩))
            (getMetricF st.metrics (marshalMetricName r.metric r.labels)),
          outdated := st.outdated,
          maxTs :=
            (if (if r.dataPoint.timestamp = 0 then nowf i else r.dataPoint.timestamp) > st.maxTs
              then (if r.dataPoint.timestamp = 0 then nowf i else r.dataPoint.timestamp)
              else st.maxTs),
          rowsNum := st.rowsNum + 1 }

/-- `memoryPartition.insertRows`.  `walOk` models the result of
`wal.append(operationInsert, rows)` (`true` = nil error); `nowf i` models
the value `toUnix(time.Now(), precision)` would produce at row `i`.  The
in-place mutation `mt.insertPoint(&row.DataPoint)` becomes storing the
updated series back into the map. -/
def MemoryPartition.insertRows {V : Type} (m : MemoryPartition V) (walOk : Bool)
    (nowf : Nat → Int) (rows : List (Row V)) :
    MemoryPartition V × Except InsertErr (List (Row V)) :=
  match rows with
  | [] => (m, .error .noRows)
  | r0 :: _ =>
    if walOk then
      -- `m.once.Do(...)`: latch `minT` to the raw batch minimum, first call only
      let m1 := if m.onceFired then m
        else { m with minT := batchMinTs rows r0.dataPoint.timestamp, onceFired := true }
      let st := insertLoop m1.minT nowf rows 0
        ⟨m1.metrics, [], r0.dataPoint.timestamp, 0⟩
      ({ m1 with
          metrics := st.metrics,
          numPoints := m1.numPoints + st.rowsNum,
          maxT := if m1.maxT < st.maxTs then st.maxTs else m1.maxT },
        .ok st.outdated)
    else (m, .error .walFail)

/-- Effective (post zero-substitution) timestamps of the non-outdated rows,
indexed like the row loop. -/
def keptEffTs {V : Type} (minT : Int) (nowf : Nat → Int) :
    List (Row V) → Nat → List Int
  | [], _ => []
  | r :: rest, i =>
    if r.dataPoint.timestamp < minT then keptEffTs minT nowf rest (i + 1)
    else (if r.dataPoint.timestamp = 0 then nowf i else r.dataPoint.timestamp)
          :: keptEffTs minT nowf rest (i + 1)

/-- `memoryPartition.selectDataPoints`: key the series via `getMetric`
(creating it when absent) and delegate to `selectPoints`.  The Go error
component is always `nil`; the outer `none` models a panic inside
`selectPoints`. -/
def MemoryPartition.selectDataPoints {V : Type} (m : MemoryPartition V)
    (metric : String) (labels : List Label) (start e : Int) :
    MemoryPartition V × Option (List (DataPoint V) × Option String) :=
  ({ m with metrics := (getMetricF m.metrics (marshalMetricName metric labels)).2 },
   ((getMetricF m.metrics (marshalMetricName metric labels)).1.selectPoints start e).map
     (fun pts => (pts, none)))

section PartitionLemmas

variable {V : Type}

lemma mapLoad_mapStore_same (ms : List (String × MemoryMetric V)) (k : String)
    (v : MemoryMetric V) : mapLoad (mapStore ms k v) k = some v := by
  induction ms with
  | nil => simp [mapStore, mapLoad]
  | cons kv rest ih =>
    obtain ⟨k', v'⟩ := kv
    by_cases h : k' = k
    · simp [mapStore, mapLoad, h]
    · simp [mapStore, mapLoad, h, ih]

lemma mapLoad_mapStore_other (ms : List (String × MemoryMetric V)) (k k' : String)
    (v : MemoryMetric V) (h : k ≠ k') :
    mapLoad (mapStore ms k v) k' = mapLoad ms k' := by
  induction ms with
  | nil => simp [mapStore, mapLoad, h]
  | cons kv rest ih =>
    obtain ⟨k0, v0⟩ := kv
    by_cases h0 : k0 = k
    · subst h0
      simp [mapStore, mapLoad, h]
    · simp only [mapStore, if_neg h0, mapLoad]
      by_cases h1 : k0 = k'
      · simp [h1]
      · simp [h1, ih]

lemma mapLoad_getMetricF_other (ms : List (String × MemoryMetric V))
    (name k : String) (h : name ≠ k) :
    mapLoad (getMetricF ms name).2 k = mapLoad ms k := by
  unfold getMetricF
  cases hload : mapLoad ms name
  · simp [mapLoad_mapStore_other _ _ _ _ h]
  · simp

lemma mapLoad_getMetricF_present (ms : List (String × MemoryMetric V))
    (name : String) (mt : MemoryMetric V) (h : mapLoad ms name = some mt) :
    (getMetricF ms name).2 = ms ∧ (getMetricF ms name).1 = mt := by
  unfold getMetricF
  rw [h]
  exact ⟨rfl, rfl⟩

lemma mapLoad_getMetricF_absent (ms : List (String × MemoryMetric V))
    (name : String) (h : mapLoad ms name = none) :
    (getMetricF ms name).2 = mapStore ms name (emptySeries name)
      ∧ (getMetricF ms name).1 = emptySeries name := by
  unfold getMetricF
  rw [h]
  exact ⟨rfl, rfl⟩

/-- Characterization of the row loop of `insertRows`: outdated rows are
collected in order, only kept rows are counted, the batch maximum folds the
effective timestamps of the kept rows, and series at keys no kept row
touches are unchanged. -/
lemma insertLoop_spec (minT : Int) (nowf : Nat → Int) :
    ∀ (rows : List (Row V)) (i : Nat) (st : InsertAcc V),
      (insertLoop minT nowf rows i st).outdated
          = st.outdated ++ rows.filter (fun r => decide (r.dataPoint.timestamp < minT))
      ∧ (insertLoop minT nowf rows i st).rowsNum
          = st.rowsNum
            + ((rows.filter (fun r => !decide (r.dataPoint.timestamp < minT))).length : Int)
      ∧ (insertLoop minT nowf rows i st).maxTs
          = (keptEffTs minT nowf rows i).foldl
              (fun acc t => if t > acc then t else acc) st.maxTs
      ∧ ∀ k, (∀ r ∈ rows, ¬ r.dataPoint.timestamp < minT →
            marshalMetricName r.metric r.labels ≠ k) →
          mapLoad (insertLoop minT nowf rows i st).metrics k = mapLoad st.metrics k := by
  intro rows
  induction rows with
  | nil =>
    intro i st
    refine ⟨by simp [insertLoop], by simp [insertLoop], by simp [insertLoop, keptEffTs], ?_⟩
    intro k hk
    simp [insertLoop]
  | cons r rest ih =>
    intro i st
    by_cases hout : r.dataPoint.timestamp < minT
    · rw [show insertLoop minT nowf (r :: rest) i st
          = insertLoop minT nowf rest (i + 1) { st with outdated := st.outdated ++ [r] } by
        simp only [insertLoop, if_pos hout]]
      obtain ⟨h1, h2, h3, h4⟩ := ih (i + 1) { st with outdated := st.outdated ++ [r] }
      refine ⟨?_, ?_, ?_, ?_⟩
      · rw [h1]
        simp [List.filter_cons, hout]
      · rw [h2]
        simp [List.filter_cons, hout]
      · rw [h3]
        simp only [keptEffTs, if_pos hout]
      · intro k hk
        rw [h4 k (fun r' hr' => hk r' (List.mem_cons_of_mem r hr'))]
    · rw [show insertLoop minT nowf (r :: rest) i st
          = insertLoop minT nowf rest (i + 1)
            { metrics :=
                (fun mtms => mapStore mtms.2 (marshalMetricName r.metric r.labels)
                  (mtms.1.insertPoint
                    ⟨if r.dataPoint.timestamp = 0 then nowf i else r.dataPoint.timestamp,
                     r.dataPoint.value⟩))
                (getMetricF st.metrics (marshalMetricName r.metric r.labels)),
              outdated := st.outdated,
              maxTs :=
                (if (if r.dataPoint.timestamp = 0 then nowf i else r.dataPoint.timestamp)
                      > st.maxTs
                  then (if r.dataPoint.timestamp = 0 then nowf i else r.dataPoint.timestamp)
                  else st.maxTs),
              rowsNum := st.rowsNum + 1 } by
        simp only [insertLoop, if_neg hout]]
      obtain ⟨h1, h2, h3, h4⟩ := ih (i + 1) _
      refine ⟨?_, ?_, ?_, ?_⟩
      · rw [h1]
        simp [List.filter_cons, hout]
      · rw [h2]
        simp only [List.filter_cons]
        rw [if_pos (by simpa using hout)]
        simp only [List.length_cons]
        push_cast
        ring
      · rw [h3]
        simp only [keptEffTs, if_neg hout, List.foldl_cons]
      · intro k hk
        rw [h4 k (fun r' hr' => hk r' (List.mem_cons_of_mem r hr'))]
        have hkr : marshalMetricName r.metric r.labels ≠ k :=
          hk r (List.mem_cons_self r rest) hout
        rw [mapLoad_mapStore_other _ _ _ _ hkr, mapLoad_getMetricF_other _ _ _ hkr]

/-- The value `minT` holds during the row loop of a given `insertRows` call:
the already-latched value, or the raw batch minimum latched by this call. -/
def latchedMin {V : Type} (m : MemoryPartition V) (rows : List (Row V)) : Int :=
  if m.onceFired then m.minT else batchMinTs rows (firstTs rows)

/-- `if t > acc { acc = t }`: the max-update step used for `maxTimestamp`. -/
def goMax (acc t : Int) : Int := if t > acc then t else acc

lemma insertRows_fail (m : MemoryPartition V) (walOk : Bool)
    (nowf : Nat → Int) (rows : List (Row V))
    (h : rows = [] ∨ walOk = false) :
    (m.insertRows walOk nowf rows).1 = m
      ∧ (m.insertRows walOk nowf rows).2.isOk = false := by
  rcases h with rfl | hw
  · exact ⟨rfl, rfl⟩
  · cases rows with
    | nil => exact ⟨rfl, rfl⟩
    | cons r0 rest =>
      subst hw
      exact ⟨rfl, rfl⟩

lemma insertRows_ok_isOk (m : MemoryPartition V) (nowf : Nat → Int)
    (r0 : Row V) (rest : List (Row V)) :
    (m.insertRows true nowf (r0 :: rest)).2.isOk = true := rfl

/-- The loop state a successful `insertRows` call ends with. -/
def insRowsLoop (m : MemoryPartition V) (nowf : Nat → Int)
    (r0 : Row V) (rest : List (Row V)) : InsertAcc V :=
  insertLoop (latchedMin m (r0 :: rest)) nowf (r0 :: rest) 0
    ⟨m.metrics, [], r0.dataPoint.timestamp, 0⟩

lemma insertRows_ok_eq (m : MemoryPartition V) (nowf : Nat → Int)
    (r0 : Row V) (rest : List (Row V)) :
    m.insertRows true nowf (r0 :: rest)
      = ({ numPoints := m.numPoints + (insRowsLoop m nowf r0 rest).rowsNum,
           minT := latchedMin m (r0 :: rest),
           maxT := if m.maxT < (insRowsLoop m nowf r0 rest).maxTs
                   then (insRowsLoop m nowf r0 rest).maxTs else m.maxT,
           metrics := (insRowsLoop m nowf r0 rest).metrics,
           onceFired := true }, .ok (insRowsLoop m nowf r0 rest).outdated) := by
  cases ho : m.onceFired <;>
    simp [MemoryPartition.insertRows, insRowsLoop, latchedMin, firstTs, ho]

/-- Field-level description of a successful `insertRows` call, by the loop
characterization. -/
lemma insertRows_ok_spec (m : MemoryPartition V) (nowf : Nat → Int)
    (r0 : Row V) (rest : List (Row V)) :
    (m.insertRows true nowf (r0 :: rest)).2
        = .ok ((r0 :: rest).filter
            (fun r => decide (r.dataPoint.timestamp < latchedMin m (r0 :: rest))))
    ∧ (m.insertRows true nowf (r0 :: rest)).1.minT = latchedMin m (r0 :: rest)
    ∧ (m.insertRows true nowf (r0 :: rest)).1.onceFired = true
    ∧ (m.insertRows true nowf (r0 :: rest)).1.numPoints
        = m.numPoints + (((r0 :: rest).filter
            (fun r => !decide (r.dataPoint.timestamp < latchedMin m (r0 :: rest)))).length : Int)
    ∧ (m.insertRows true nowf (r0 :: rest)).1.maxT
        = goMax m.maxT
            ((keptEffTs (latchedMin m (r0 :: rest)) nowf (r0 :: rest) 0).foldl
              (fun acc t => if t > acc then t else acc) r0.dataPoint.timestamp)
    ∧ (∀ k, (∀ r ∈ r0 :: rest, ¬ r.dataPoint.timestamp < latchedMin m (r0 :: rest) →
          marshalMetricName r.metric r.labels ≠ k) →
        mapLoad (m.insertRows true nowf (r0 :: rest)).1.metrics k = mapLoad m.metrics k) := by
  obtain ⟨h1, h2, h3, h4⟩ := insertLoop_spec (latchedMin m (r0 :: rest)) nowf (r0 :: rest) 0
    ⟨m.metrics, [], r0.dataPoint.timestamp, 0⟩
  rw [insertRows_ok_eq]
  refine ⟨?_, rfl, rfl, ?_, ?_, ?_⟩
  · show Except.ok (insRowsLoop m nowf r0 rest).outdated = _
    rw [show (insRowsLoop m nowf r0 rest).outdated = _ from h1]
    rfl
  · show m.numPoints + (insRowsLoop m nowf r0 rest).rowsNum = _
    rw [show (insRowsLoop m nowf r0 rest).rowsNum = _ from h2]
    simp
  · show (if m.maxT < (insRowsLoop m nowf r0 rest).maxTs
        then (insRowsLoop m nowf r0 rest).maxTs else m.maxT) = _
    rw [show (insRowsLoop m nowf r0 rest).maxTs = _ from h3]
    rfl
  · intro k hk
    show mapLoad (insRowsLoop m nowf r0 rest).metrics k = _
    exact h4 k hk

lemma length_filter_not_add {α : Type _} (p : α → Bool) (l : List α) :
    (l.filter (fun a => !p a)).length + (l.filter p).length = l.length := by
  induction l with
  | nil => rfl
  | cons x xs ih =>
    by_cases h : p x = true
    · rw [List.filter_cons_of_pos h, List.filter_cons_of_neg (by simp [h])]
      simp only [List.length_cons]
      omega
    · rw [List.filter_cons_of_neg h, List.filter_cons_of_pos (by simp [h])]
      simp only [List.length_cons]
      omega

end PartitionLemmas

/-- C5: `insertRows` returns an error exactly when the batch is empty or the
WAL append fails, and in either error case the partition state — the latch,
`minT`, `maxT`, `numPoints` and the metrics map — is completely unchanged. -/
theorem c5_insertRows_error_conditions {V : Type} (m : MemoryPartition V)
    (walOk : Bool) (nowf : Nat → Int) (rows : List (Row V)) :
    ((m.insertRows walOk nowf rows).2.isOk = false ↔ (rows = [] ∨ walOk = false))
    ∧ ((m.insertRows walOk nowf rows).2.isOk = false →
        (m.insertRows walOk nowf rows).1 = m) := by
  have hiff : (m.insertRows walOk nowf rows).2.isOk = false
      ↔ (rows = [] ∨ walOk = false) := by
    constructor
    · intro herr
      by_contra hc
      push_neg at hc
      obtain ⟨hne, hwal⟩ := hc
      cases rows with
      | nil => exact hne rfl
      | cons r0 rest =>
        have hw : walOk = true := by
          cases walOk
          · exact absurd rfl hwal
          · rfl
        subst hw
        rw [insertRows_ok_isOk] at herr
        simp at herr
    · intro h
      exact (insertRows_fail m walOk nowf rows h).2
  exact ⟨hiff, fun herr => (insertRows_fail m walOk nowf rows (hiff.mp herr)).1⟩

/-- Witness for C5: a failing WAL append leaves a concrete partition
unchanged and reports the error. -/
theorem c5_insertRows_witness :
    ((newMemoryPartition Int).insertRows false (fun _ => 0)
        [⟨"m1", [], ⟨1, 0⟩⟩]).2.isOk = false
    ∧ ((newMemoryPartition Int).insertRows false (fun _ => 0)
        [⟨"m1", [], ⟨1, 0⟩⟩]).1 = newMemoryPartition Int := by
  have h := c5_insertRows_error_conditions (newMemoryPartition Int) false (fun _ => 0)
    [⟨"m1", [], ⟨1, 0⟩⟩]
  have he := h.1.mpr (Or.inr rfl)
  exact ⟨he, h.2 he⟩

/-- C9: a successful `insertRows` call that reports `outdated` grows
`size()` by exactly `len(rows) - len(outdated)`: every non-outdated row is
counted in `numPoints`, including the ones routed to `outOfOrderPoints`. -/
theorem c9_insertRows_size_delta {V : Type} (m : MemoryPartition V) (walOk : Bool)
    (nowf : Nat → Int) (rows : List (Row V)) (outdated : List (Row V))
    (hok : (m.insertRows walOk nowf rows).2 = .ok outdated) :
    (m.insertRows walOk nowf rows).1.size
      = m.size + (rows.length : Int) - (outdated.length : Int) := by
  cases rows with
  | nil => exact absurd hok (by simp [MemoryPartition.insertRows])
  | cons r0 rest =>
    cases walOk with
    | false => exact absurd hok (by simp [MemoryPartition.insertRows])
    | true =>
      obtain ⟨h1, _, _, h4, _, _⟩ := insertRows_ok_spec m nowf r0 rest
      rw [hok] at h1
      injection h1 with h5
      subst h5
      show (m.insertRows true nowf (r0 :: rest)).1.numPoints = m.numPoints + _ - _
      rw [h4]
      have hlen := length_filter_not_add
        (fun r : Row V => decide (r.dataPoint.timestamp < latchedMin m (r0 :: rest)))
        (r0 :: rest)
      omega

section MaxFold

lemma goMax_assoc (a b t : Int) : goMax (goMax a b) t = goMax a (goMax b t) := by
  unfold goMax
  split_ifs <;> omega

lemma goMax_absorb (a b : Int) : goMax (goMax a b) b = goMax a b := by
  unfold goMax
  split_ifs <;> omega

lemma goMax_of_le {a b : Int} (h : b ≤ a) : goMax a b = a := by
  unfold goMax
  split_ifs <;> omega

lemma foldl_goMax_comm : ∀ (L : List Int) (a b : Int),
    L.foldl goMax (goMax a b) = goMax a (L.foldl goMax b) := by
  intro L
  induction L with
  | nil => intro a b; rfl
  | cons t L ih =>
    intro a b
    show L.foldl goMax (goMax (goMax a b) t) = goMax a (L.foldl goMax (goMax b t))
    rw [goMax_assoc, ih]

end MaxFold

/-- C4: on a latched partition (hence `0 ≤ maxT` and `minT ≤ maxT`, which
hold in every latched reachable state), a successful `insertRows` returns
exactly the rows below `minT`, in batch order, and those rows are inert:
they are not counted in `numPoints`, they do not feed the `maxT` update, and
the series of any key no kept row touches is untouched. -/
theorem c4_insertRows_outdated_rows {V : Type} (m : MemoryPartition V)
    (nowf : Nat → Int) (rows : List (Row V))
    (hlatch : m.onceFired = true) (hminmax : m.minT ≤ m.maxT) (hmax0 : 0 ≤ m.maxT)
    (hne : rows ≠ []) :
    (m.insertRows true nowf rows).2
        = .ok (rows.filter (fun r => decide (r.dataPoint.timestamp < m.minT)))
    ∧ (m.insertRows true nowf rows).1.minT = m.minT
    ∧ (m.insertRows true nowf rows).1.onceFired = true
    ∧ (m.insertRows true nowf rows).1.numPoints
        = m.numPoints + ((rows.filter
            (fun r => !decide (r.dataPoint.timestamp < m.minT))).length : Int)
    ∧ (m.insertRows true nowf rows).1.maxT
        = (keptEffTs m.minT nowf rows 0).foldl goMax m.maxT
    ∧ ∀ k, (∀ r ∈ rows, ¬ r.dataPoint.timestamp < m.minT →
          marshalMetricName r.metric r.labels ≠ k) →
        mapLoad (m.insertRows true nowf rows).1.metrics k = mapLoad m.metrics k := by
  cases rows with
  | nil => exact absurd rfl hne
  | cons r0 rest =>
    have hl : latchedMin m (r0 :: rest) = m.minT := by
      simp [latchedMin, hlatch]
    obtain ⟨h1, h2, h3, h4, h5, h6⟩ := insertRows_ok_spec m nowf r0 rest
    rw [hl] at h1 h2 h4 h5 h6
    refine ⟨h1, h2, h3, h4, ?_, h6⟩
    rw [h5]
    have hfold : ∀ (L : List Int) (b : Int),
        L.foldl (fun acc t => if t > acc then t else acc) b = L.foldl goMax b := by
      intro L b
      rfl
    rw [hfold]
    rw [show goMax m.maxT ((keptEffTs m.minT nowf (r0 :: rest) 0).foldl goMax
          r0.dataPoint.timestamp)
        = (keptEffTs m.minT nowf (r0 :: rest) 0).foldl goMax
            (goMax m.maxT r0.dataPoint.timestamp) from
      (foldl_goMax_comm _ _ _).symm]
    by_cases hout : r0.dataPoint.timestamp < m.minT
    · rw [goMax_of_le (by omega)]
    · rw [show keptEffTs m.minT nowf (r0 :: rest) 0
          = (if r0.dataPoint.timestamp = 0 then nowf 0 else r0.dataPoint.timestamp)
              :: keptEffTs m.minT nowf rest 1 by
        simp only [keptEffTs, if_neg hout]]
      by_cases hz : r0.dataPoint.timestamp = 0
      · rw [if_pos hz, hz, goMax_of_le hmax0]
      · rw [if_neg hz]
        show (keptEffTs m.minT nowf rest 1).foldl goMax
            (goMax (goMax m.maxT r0.dataPoint.timestamp) r0.dataPoint.timestamp) = _
        rw [goMax_absorb]
        rfl

/-- Witness for C4: on a concrete latched partition, inserting one in-order
and one outdated row returns exactly the outdated row and leaves `minT`
latched. -/
theorem c4_insertRows_witness :
    ((((newMemoryPartition Int).insertRows true (fun _ => 0)
          [⟨"m1", [], ⟨5, 0⟩⟩]).1).insertRows true (fun _ => 0)
        [⟨"m1", [], ⟨7, 0⟩⟩, ⟨"m1", [], ⟨3, 0⟩⟩]).2
      = .ok [⟨"m1", [], ⟨3, 0⟩⟩] := by
  have h := c4_insertRows_outdated_rows
    (((newMemoryPartition Int).insertRows true (fun _ => 0) [⟨"m1", [], ⟨5, 0⟩⟩]).1)
    (fun _ => 0) [⟨"m1", [], ⟨7, 0⟩⟩, ⟨"m1", [], ⟨3, 0⟩⟩]
    rfl (by decide) (by decide) (by decide)
  rw [h.1]
  rfl

/-- Witness for C9: inserting an in-order and an outdated row on a latched
concrete partition grows `size()` by one. -/
theorem c9_insertRows_witness :
    (((newMemoryPartition Int).insertRows true (fun _ => 0)
        [⟨"m1", [], ⟨5, 0⟩⟩]).1.insertRows true (fun _ => 0)
        [⟨"m1", [], ⟨7, 0⟩⟩, ⟨"m1", [], ⟨1, 0⟩⟩]).1.size = 2 := by
  have h := c9_insertRows_size_delta
    (((newMemoryPartition Int).insertRows true (fun _ => 0) [⟨"m1", [], ⟨5, 0⟩⟩]).1)
    true (fun _ => 0) [⟨"m1", [], ⟨7, 0⟩⟩, ⟨"m1", [], ⟨1, 0⟩⟩]
    [⟨"m1", [], ⟨1, 0⟩⟩] rfl
  rw [h]
  decide

/-! ## Sequences of `insertRows` calls (the `minT` latch, C8) -/

/-- One `insertRows` call: the WAL append outcome, the batch, and the clock
readings for this call. -/
structure InsertCall (V : Type) where
  walOk : Bool
  rows : List (Row V)
  nowf : Nat → Int

/-- Apply one call, keeping the partition. -/
def applyInsert {V : Type} (m : MemoryPartition V) (c : InsertCall V) :
    MemoryPartition V :=
  (m.insertRows c.walOk c.nowf c.rows).1

/-- Apply a sequence of calls. -/
def runInserts {V : Type} (m : MemoryPartition V) (cs : List (InsertCall V)) :
    MemoryPartition V :=
  cs.foldl applyInsert m

section TraceLemmas

variable {V : Type}

lemma applyInsert_fail (m : MemoryPartition V) (c : InsertCall V)
    (h : c.rows = [] ∨ c.walOk = false) : applyInsert m c = m :=
  (insertRows_fail m c.walOk c.nowf c.rows h).1

lemma applyInsert_stable (m : MemoryPartition V) (c : InsertCall V)
    (h : m.onceFired = true) :
    (applyInsert m c).minT = m.minT ∧ (applyInsert m c).onceFired = true := by
  cases hr : c.rows with
  | nil =>
    rw [applyInsert_fail m c (Or.inl hr)]
    exact ⟨rfl, h⟩
  | cons r0 rest =>
    cases hw : c.walOk with
    | false =>
      rw [applyInsert_fail m c (Or.inr hw)]
      exact ⟨rfl, h⟩
    | true =>
      unfold applyInsert
      rw [hr, hw]
      obtain ⟨_, h2, h3, _, _, _⟩ := insertRows_ok_spec m c.nowf r0 rest
      rw [h2, h3]
      exact ⟨by simp [latchedMin, h], rfl⟩

lemma applyInsert_latch (c : InsertCall V)
    (hrows : c.rows ≠ []) (hwal : c.walOk = true) :
    (applyInsert (newMemoryPartition V) c).minT = batchMinTs c.rows (firstTs c.rows)
    ∧ (applyInsert (newMemoryPartition V) c).onceFired = true := by
  cases hr : c.rows with
  | nil => exact absurd hr hrows
  | cons r0 rest =>
    unfold applyInsert
    rw [hr, hwal]
    obtain ⟨_, h2, h3, _, _, _⟩ := insertRows_ok_spec (newMemoryPartition V) c.nowf r0 rest
    rw [h2, h3]
    exact ⟨by simp [latchedMin, newMemoryPartition, firstTs], rfl⟩

lemma runInserts_fail_id : ∀ (cs : List (InsertCall V)) (m : MemoryPartition V),
    (∀ c' ∈ cs, c'.rows = [] ∨ c'.walOk = false) → runInserts m cs = m := by
  intro cs
  induction cs with
  | nil => intro m h; rfl
  | cons c' rest ih =>
    intro m h
    show runInserts (applyInsert m c') rest = m
    rw [applyInsert_fail m c' (h c' (List.mem_cons_self _ _))]
    exact ih m (fun c hm => h c (List.mem_cons_of_mem _ hm))

lemma runInserts_preserves_latched : ∀ (cs : List (InsertCall V)) (m : MemoryPartition V),
    m.onceFired = true →
    (runInserts m cs).minT = m.minT ∧ (runInserts m cs).onceFired = true := by
  intro cs
  induction cs with
  | nil => intro m h; exact ⟨rfl, h⟩
  | cons c' rest ih =>
    intro m h
    have hstep := applyInsert_stable m c' h
    show (runInserts (applyInsert m c') rest).minT = m.minT
        ∧ (runInserts (applyInsert m c') rest).onceFired = true
    obtain ⟨ih1, ih2⟩ := ih (applyInsert m c') hstep.2
    exact ⟨ih1.trans hstep.1, ih2⟩

end TraceLemmas

/-- C8: starting from a fresh partition, the first `insertRows` call that
passes the WAL append latches `minT` to the minimum raw timestamp of its
batch (before zero-timestamp substitution), and no later call ever changes
it. -/
theorem c8_minT_latch {V : Type} (pre : List (InsertCall V)) (c : InsertCall V)
    (post : List (InsertCall V))
    (hpre : ∀ c' ∈ pre, c'.rows = [] ∨ c'.walOk = false)
    (hrows : c.rows ≠ []) (hwal : c.walOk = true) :
    (runInserts (newMemoryPartition V) (pre ++ c :: post)).minT
        = batchMinTs c.rows (firstTs c.rows)
    ∧ (runInserts (newMemoryPartition V) (pre ++ c :: post)).onceFired = true := by
  have hsplit : runInserts (newMemoryPartition V) (pre ++ c :: post)
      = runInserts (applyInsert (runInserts (newMemoryPartition V) pre) c) post := by
    unfold runInserts
    rw [List.foldl_append]
    rfl
  rw [hsplit, runInserts_fail_id pre (newMemoryPartition V) hpre]
  obtain ⟨hl1, hl2⟩ := applyInsert_latch c hrows hwal
  obtain ⟨hp1, hp2⟩ := runInserts_preserves_latched post _ hl2
  exact ⟨hp1.trans hl1, hp2⟩

/-- Witness for C8: a failing call, a successful batch `[5, 3]`, and a later
call do leave `minT = 3`. -/
theorem c8_minT_latch_witness :
    (runInserts (newMemoryPartition Int)
        [⟨true, [], fun _ => 0⟩,
         ⟨true, [⟨"m1", [], ⟨5, 0⟩⟩, ⟨"m1", [], ⟨3, 0⟩⟩], fun _ => 0⟩,
         ⟨true, [⟨"m1", [], ⟨1, 0⟩⟩], fun _ => 0⟩]).minT = 3 := by
  have h := c8_minT_latch (V := Int) [⟨true, [], fun _ => 0⟩]
    ⟨true, [⟨"m1", [], ⟨5, 0⟩⟩, ⟨"m1", [], ⟨3, 0⟩⟩], fun _ => 0⟩
    [⟨true, [⟨"m1", [], ⟨1, 0⟩⟩], fun _ => 0⟩]
    (by
      intro c' hc'
      rw [List.mem_singleton] at hc'
      subst hc'
      exact Or.inl rfl)
    (by simp) rfl
  exact h.1.trans (by decide)

/-! ## `selectDataPoints` (C10) -/

/-- `selectPoints` on a freshly created (empty) series is `[]` for every
query and never panics. -/
lemma selectPoints_empty {V : Type} (name : String) (start e : Int) :
    (emptySeries (V := V) name).selectPoints start e = some [] := by
  unfold MemoryMetric.selectPoints emptySeries
  simp only
  by_cases he : e ≤ (0 : Int)
  · rw [if_pos he]
  · rw [if_neg he, if_pos (by omega : e ≥ (0 : Int))]
    by_cases hs : start ≤ (0 : Int)
    · rw [if_pos hs]
      rfl
    · rw [if_neg hs]
      rfl

/-- C10 (amended): whenever `selectDataPoints` returns, its error component
is nil (it can panic instead of returning, inside `selectPoints`); it leaves
`minT`, `maxT`, `numPoints` and every existing series untouched; and for an
absent metric key it stores a fresh empty series into the metrics map and
returns an empty result. -/
theorem c10_selectDataPoints_effects {V : Type} (m : MemoryPartition V)
    (metric : String) (labels : List Label) (start e : Int) :
    (∀ pts err, (m.selectDataPoints metric labels start e).2 = some (pts, err) →
        err = none)
    ∧ (m.selectDataPoints metric labels start e).1.numPoints = m.numPoints
    ∧ (m.selectDataPoints metric labels start e).1.minT = m.minT
    ∧ (m.selectDataPoints metric labels start e).1.maxT = m.maxT
    ∧ (m.selectDataPoints metric labels start e).1.onceFired = m.onceFired
    ∧ (∀ k mt, mapLoad m.metrics k = some mt →
        mapLoad (m.selectDataPoints metric labels start e).1.metrics k = some mt)
    ∧ (mapLoad m.metrics (marshalMetricName metric labels) = none →
        (m.selectDataPoints metric labels start e).1.metrics
            = mapStore m.metrics (marshalMetricName metric labels)
                (emptySeries (marshalMetricName metric labels))
        ∧ (m.selectDataPoints metric labels start e).2 = some ([], none)) := by
  refine ⟨?_, rfl, rfl, rfl, rfl, ?_, ?_⟩
  · intro pts err hres
    unfold MemoryPartition.selectDataPoints at hres
    cases hsel : ((getMetricF m.metrics (marshalMetricName metric labels)).1.selectPoints
        start e) with
    | none => rw [hsel] at hres; simp at hres
    | some l =>
      rw [hsel] at hres
      simp only [Option.map_some] at hres
      injection hres with hres'
      have := congrArg Prod.snd hres'
      simpa using this.symm
  · intro k mt hload
    show mapLoad (getMetricF m.metrics (marshalMetricName metric labels)).2 k = some mt
    cases hn : mapLoad m.metrics (marshalMetricName metric labels) with
    | some mt' =>
      rw [(mapLoad_getMetricF_present _ _ _ hn).1]
      exact hload
    | none =>
      have hne : marshalMetricName metric labels ≠ k := by
        intro hc
        rw [hc] at hn
        rw [hn] at hload
        cases hload
      rw [mapLoad_getMetricF_other _ _ _ hne]
      exact hload
  · intro habs
    obtain ⟨hm2, hm1⟩ := mapLoad_getMetricF_absent m.metrics
      (marshalMetricName metric labels) habs
    constructor
    · show (getMetricF m.metrics (marshalMetricName metric labels)).2 = _
      exact hm2
    · show ((getMetricF m.metrics (marshalMetricName metric labels)).1.selectPoints
          start e).map (fun pts => (pts, none)) = some ([], none)
      rw [hm1, selectPoints_empty]
      rfl

/-- A reachable partition whose series `m1` holds in-order points at
timestamps 1, 2, 5; used to exhibit the `selectDataPoints` panic. -/
def c10Partition : MemoryPartition Int :=
  ((newMemoryPartition Int).insertRows true (fun _ => 0)
    [⟨"m1", [], ⟨1, 0⟩⟩, ⟨"m1", [], ⟨2, 0⟩⟩, ⟨"m1", [], ⟨5, 0⟩⟩]).1

/-- C10 counterexample: on a reachable partition, the inverted query
`(start, end) = (3, 2)` makes `selectPoints` slice `points[2:1]`, a run-time
panic — `selectDataPoints` does not return at all, so in particular it does
not "always return a nil error". -/
theorem c10_counterexample :
    (c10Partition.selectDataPoints "m1" [] 3 2).2 = none := by
  decide

/-- Witness for C10 at a concrete partition and query: an absent metric key
stores a fresh series and returns an empty result with a nil error. -/
theorem c10_selectDataPoints_witness :
    ((newMemoryPartition Int).selectDataPoints "m1" [] 0 4).2 = some ([], none)
    ∧ ((newMemoryPartition Int).selectDataPoints "m1" [] 0 4).1.metrics
        = [("m1", emptySeries "m1")] := by
  have h := c10_selectDataPoints_effects (newMemoryPartition Int) "m1" [] 0 4
  obtain ⟨hmet, hres⟩ := (h.2.2.2.2.2.2) rfl
  exact ⟨hres, hmet⟩

/-! ## `encodeAllPoints` (C3) -/

/-- Insert a point into a timestamp-sorted list. -/
def insertSorted {V : Type} (p : DataPoint V) : List (DataPoint V) → List (DataPoint V)
  | [] => [p]
  | q :: qs =>
    if q.timestamp < p.timestamp then q :: insertSorted p qs else p :: q :: qs

/-- The `sort.Slice(m.outOfOrderPoints, ts <)` call of `encodeAllPoints`.
`sort.Slice` promises only *a* permutation sorted by the comparator (it is
not stable); an insertion sort produces one such permutation. -/
def sortByTs {V : Type} : List (DataPoint V) → List (DataPoint V)
  | [] => []
  | p :: ps => insertSorted p (sortByTs ps)

/-- The two-pointer merge of `encodeAllPoints`, as a pure function over any
element type with an integer key (used both untagged and tagged with the
origin of each point).  `fuel` only provides structural termination;
`os.length + ps.length` steps always suffice. -/
def mergeByKeyAux {α : Type _} (key : α → Int) : Nat → List α → List α → List α
  | _, [], ps => ps
  | _, os, [] => os
  | 0, _, _ => []
  | fuel + 1, o :: os, p :: ps =>
    if key o < key p then o :: mergeByKeyAux key fuel os (p :: ps)
    else p :: mergeByKeyAux key fuel (o :: os) ps

/-- The merge with enough fuel. -/
def mergeByKey {α : Type _} (key : α → Int) (os ps : List α) : List α :=
  mergeByKeyAux key (os.length + ps.length) os ps

/-- The drain loops at the end of `encodeAllPoints`: encode the remaining
points of one buffer, stopping at the first encoder error.  Returns the
`encodePoint` calls made and whether an error was returned. -/
def encodeDrain {V : Type} (fail : DataPoint V → Bool) :
    List (DataPoint V) → List (DataPoint V) × Bool
  | [] => ([], false)
  | p :: ps =>
    if fail p then ([p], true)
    else ((encodeDrain fail ps).1.cons p, (encodeDrain fail ps).2)

/-- The main merge loop of `encodeAllPoints` followed by the two drain
loops, with early exit on an encoder error.  Returns the `encodePoint`
calls made and whether an error was returned; `fuel` only provides
structural termination. -/
def encodeMergeAux {V : Type} (fail : DataPoint V → Bool) :
    Nat → List (DataPoint V) → List (DataPoint V) → List (DataPoint V) × Bool
  | _, [], ps => encodeDrain fail ps
  | _, os, [] => encodeDrain fail os
  | 0, _, _ => ([], false)
  | fuel + 1, o :: os, p :: ps =>
    if o.timestamp < p.timestamp then
      if fail o then ([o], true)
      else ((encodeMergeAux fail fuel os (p :: ps)).1.cons o,
            (encodeMergeAux fail fuel os (p :: ps)).2)
    else
      if fail p then ([p], true)
      else ((encodeMergeAux fail fuel (o :: os) ps).1.cons p,
            (encodeMergeAux fail fuel (o :: os) ps).2)

/-- `memoryMetric.encodeAllPoints`, with the encoder abstracted to the
predicate `fail` (`encoder.encodePoint` errors exactly on points where
`fail` holds): the sequence of `encodePoint` calls made and whether the
function returned an error. -/
def encodeAllPointsCalls {V : Type} (fail : DataPoint V → Bool) (m : MemoryMetric V) :
    List (DataPoint V) × Bool :=
  encodeMergeAux fail ((sortByTs m.outOfOrderPoints).length + m.points.length)
    (sortByTs m.outOfOrderPoints) m.points

/-- The merge tagged with each point's origin: `false` for out-of-order
points, `true` for in-order points. -/
def taggedTrace {V : Type} (m : MemoryMetric V) : List (DataPoint V × Bool) :=
  mergeByKey (fun x => x.1.timestamp)
    ((sortByTs m.outOfOrderPoints).map (fun p => (p, false)))
    (m.points.map (fun p => (p, true)))

section MergeLemmas

variable {V : Type} {α : Type _}

lemma insertSorted_perm (p : DataPoint V) (l : List (DataPoint V)) :
    (insertSorted p l).Perm (p :: l) := by
  induction l with
  | nil => rfl
  | cons q qs ih =>
    by_cases hq : q.timestamp < p.timestamp
    · rw [insertSorted, if_pos hq]
      exact (ih.cons q).trans (List.Perm.swap p q qs)
    · rw [insertSorted, if_neg hq]

lemma sortByTs_perm (l : List (DataPoint V)) : (sortByTs l).Perm l := by
  induction l with
  | nil => rfl
  | cons p ps ih =>
    exact (insertSorted_perm p (sortByTs ps)).trans (ih.cons p)

lemma insertSorted_sorted (p : DataPoint V) (l : List (DataPoint V))
    (h : l.Pairwise (fun a b => a.timestamp ≤ b.timestamp)) :
    (insertSorted p l).Pairwise (fun a b => a.timestamp ≤ b.timestamp) := by
  induction l with
  | nil => simp [insertSorted]
  | cons q qs ih =>
    have hp := List.pairwise_cons.mp h
    by_cases hq : q.timestamp < p.timestamp
    · rw [insertSorted, if_pos hq]
      rw [List.pairwise_cons]
      refine ⟨?_, ih hp.2⟩
      intro b hb
      have hb' : b ∈ p :: qs := (insertSorted_perm p qs).mem_iff.mp hb
      rcases List.mem_cons.mp hb' with rfl | hb''
      · exact le_of_lt hq
      · exact hp.1 b hb''
    · rw [insertSorted, if_neg hq]
      rw [List.pairwise_cons]
      refine ⟨?_, h⟩
      intro b hb
      rcases List.mem_cons.mp hb with rfl | hb'
      · omega
      · exact le_trans (by omega) (hp.1 b hb')

lemma sortByTs_sorted (l : List (DataPoint V)) :
    (sortByTs l).Pairwise (fun a b => a.timestamp ≤ b.timestamp) := by
  induction l with
  | nil => simp [sortByTs]
  | cons p ps ih => exact insertSorted_sorted p _ ih

lemma mergeByKeyAux_nil_left (key : α → Int) (fuel : Nat) (ps : List α) :
    mergeByKeyAux key fuel [] ps = ps := by
  cases fuel <;> cases ps <;> rfl

lemma mergeByKeyAux_nil_right (key : α → Int) (fuel : Nat) (os : List α) :
    mergeByKeyAux key fuel os [] = os := by
  cases fuel <;> cases os <;> rfl

lemma mergeByKeyAux_succ_cons (key : α → Int) (fuel : Nat) (o : α) (os : List α)
    (p : α) (ps : List α) :
    mergeByKeyAux key (fuel + 1) (o :: os) (p :: ps)
      = if key o < key p then o :: mergeByKeyAux key fuel os (p :: ps)
        else p :: mergeByKeyAux key fuel (o :: os) ps := rfl

lemma mergeByKeyAux_perm (key : α → Int) :
    ∀ (fuel : Nat) (os ps : List α), os.length + ps.length ≤ fuel →
      (mergeByKeyAux key fuel os ps).Perm (os ++ ps) := by
  intro fuel
  induction fuel with
  | zero =>
    intro os ps h
    cases os with
    | nil => rw [mergeByKeyAux_nil_left, List.nil_append]
    | cons o os' => simp at h
  | succ fuel ih =>
    intro os ps h
    cases os with
    | nil =>
      rw [mergeByKeyAux_nil_left, List.nil_append]
    | cons o os' =>
      cases ps with
      | nil =>
        rw [mergeByKeyAux_nil_right, List.append_nil]
      | cons p ps' =>
        rw [mergeByKeyAux_succ_cons]
        by_cases hk : key o < key p
        · rw [if_pos hk]
          exact ((ih os' (p :: ps') (by simp at h ⊢; omega)).cons o)
        · rw [if_neg hk]
          exact ((ih (o :: os') ps' (by simp at h ⊢; omega)).cons p).trans
            List.perm_middle.symm

lemma mergeByKeyAux_sorted (key : α → Int) :
    ∀ (fuel : Nat) (os ps : List α), os.length + ps.length ≤ fuel →
      os.Pairwise (fun a b => key a ≤ key b) →
      ps.Pairwise (fun a b => key a ≤ key b) →
      (mergeByKeyAux key fuel os ps).Pairwise (fun a b => key a ≤ key b) := by
  intro fuel
  induction fuel with
  | zero =>
    intro os ps h hos hps
    cases os with
    | nil => rw [mergeByKeyAux_nil_left]; exact hps
    | cons o os' => simp at h
  | succ fuel ih =>
    intro os ps h hos hps
    cases os with
    | nil => rw [mergeByKeyAux_nil_left]; exact hps
    | cons o os' =>
      cases ps with
      | nil => rw [mergeByKeyAux_nil_right]; exact hos
      | cons p ps' =>
        have ho := List.pairwise_cons.mp hos
        have hp := List.pairwise_cons.mp hps
        rw [mergeByKeyAux_succ_cons]
        by_cases hk : key o < key p
        · rw [if_pos hk, List.pairwise_cons]
          refine ⟨?_, ih os' (p :: ps') (by simp at h ⊢; omega) ho.2 hps⟩
          intro b hb
          have hb' : b ∈ os' ++ p :: ps' :=
            (mergeByKeyAux_perm key fuel os' (p :: ps') (by simp at h ⊢; omega)).mem_iff.mp hb
          rcases List.mem_append.mp hb' with hb1 | hb2
          · exact ho.1 b hb1
          · rcases List.mem_cons.mp hb2 with rfl | hb3
            · exact le_of_lt hk
            · exact le_trans (le_of_lt hk) (hp.1 b hb3)
        · rw [if_neg hk, List.pairwise_cons]
          refine ⟨?_, ih (o :: os') ps' (by simp at h ⊢; omega) hos hp.2⟩
          intro b hb
          have hb' : b ∈ (o :: os') ++ ps' :=
            (mergeByKeyAux_perm key fuel (o :: os') ps' (by simp at h ⊢; omega)).mem_iff.mp hb
          rcases List.mem_append.mp hb' with hb1 | hb2
          · rcases List.mem_cons.mp hb1 with rfl | hb3
            · omega
            · exact le_trans (by omega) (ho.1 b hb3)
          · exact hp.1 b hb2

lemma pairwise_tie_of_all_true (l : List (DataPoint V × Bool))
    (h : ∀ x ∈ l, x.2 = true) :
    l.Pairwise (fun a b => a.2 = false → b.2 = true → a.1.timestamp < b.1.timestamp) := by
  induction l with
  | nil => exact List.Pairwise.nil
  | cons x xs ih =>
    rw [List.pairwise_cons]
    refine ⟨?_, ih (fun y hy => h y (List.mem_cons_of_mem _ hy))⟩
    intro b hb hfalse htrue
    rw [h x (List.mem_cons_self _ _)] at hfalse
    cases hfalse

lemma pairwise_tie_of_all_false (l : List (DataPoint V × Bool))
    (h : ∀ x ∈ l, x.2 = false) :
    l.Pairwise (fun a b => a.2 = false → b.2 = true → a.1.timestamp < b.1.timestamp) := by
  induction l with
  | nil => exact List.Pairwise.nil
  | cons x xs ih =>
    rw [List.pairwise_cons]
    refine ⟨?_, ih (fun y hy => h y (List.mem_cons_of_mem _ hy))⟩
    intro b hb hfalse htrue
    rw [h b (List.mem_cons_of_mem _ hb)] at htrue
    cases htrue

lemma mergeByKeyAux_tie :
    ∀ (fuel : Nat) (os ps : List (DataPoint V × Bool)), os.length + ps.length ≤ fuel →
      (∀ x ∈ os, x.2 = false) → (∀ x ∈ ps, x.2 = true) →
      ps.Pairwise (fun a b => a.1.timestamp ≤ b.1.timestamp) →
      (mergeByKeyAux (fun x => x.1.timestamp) fuel os ps).Pairwise
        (fun a b => a.2 = false → b.2 = true → a.1.timestamp < b.1.timestamp) := by
  intro fuel
  induction fuel with
  | zero =>
    intro os ps h hos hps hsort
    cases os with
    | nil => rw [mergeByKeyAux_nil_left]; exact pairwise_tie_of_all_true ps hps
    | cons o os' => simp at h
  | succ fuel ih =>
    intro os ps h hos hps hsort
    cases os with
    | nil => rw [mergeByKeyAux_nil_left]; exact pairwise_tie_of_all_true ps hps
    | cons o os' =>
      cases ps with
      | nil => rw [mergeByKeyAux_nil_right]; exact pairwise_tie_of_all_false _ hos
      | cons p ps' =>
        have hsp := List.pairwise_cons.mp hsort
        rw [mergeByKeyAux_succ_cons]
        by_cases hk : o.1.timestamp < p.1.timestamp
        · rw [if_pos hk, List.pairwise_cons]
          refine ⟨?_, ih os' (p :: ps') (by simp at h ⊢; omega)
            (fun x hx => hos x (List.mem_cons_of_mem _ hx)) hps hsort⟩
          intro b hb hofalse hbtrue
          have hb' : b ∈ os' ++ p :: ps' :=
            (mergeByKeyAux_perm _ fuel os' (p :: ps')
              (by simp at h ⊢; omega)).mem_iff.mp hb
          rcases List.mem_append.mp hb' with hb1 | hb2
          · rw [hos b (List.mem_cons_of_mem _ hb1)] at hbtrue
            cases hbtrue
          · rcases List.mem_cons.mp hb2 with rfl | hb3
            · exact hk
            · exact lt_of_lt_of_le hk (hsp.1 b hb3)
        · rw [if_neg hk, List.pairwise_cons]
          refine ⟨?_, ih (o :: os') ps' (by simp at h ⊢; omega) hos
            (fun x hx => hps x (List.mem_cons_of_mem _ hx)) hsp.2⟩
          intro b hb hpfalse hbtrue
          rw [hps p (List.mem_cons_self _ _)] at hpfalse
          cases hpfalse

lemma mergeByKeyAux_map_fst :
    ∀ (fuel : Nat) (os ps : List (DataPoint V × Bool)),
      (mergeByKeyAux (fun x => x.1.timestamp) fuel os ps).map Prod.fst
        = mergeByKeyAux (fun p => p.timestamp) fuel (os.map Prod.fst) (ps.map Prod.fst) := by
  intro fuel
  induction fuel with
  | zero =>
    intro os ps
    cases os with
    | nil => rw [mergeByKeyAux_nil_left, List.map_nil, mergeByKeyAux_nil_left]
    | cons o os' =>
      cases ps with
      | nil =>
        rw [mergeByKeyAux_nil_right, List.map_cons, List.map_nil, mergeByKeyAux_nil_right]
      | cons p ps' => rfl
  | succ fuel ih =>
    intro os ps
    cases os with
    | nil => rw [mergeByKeyAux_nil_left, List.map_nil, mergeByKeyAux_nil_left]
    | cons o os' =>
      cases ps with
      | nil =>
        rw [mergeByKeyAux_nil_right, List.map_cons, List.map_nil, mergeByKeyAux_nil_right]
      | cons p ps' =>
        rw [mergeByKeyAux_succ_cons, List.map_cons, List.map_cons, mergeByKeyAux_succ_cons]
        by_cases hk : o.1.timestamp < p.1.timestamp
        · rw [if_pos hk, if_pos hk, List.map_cons, ih]
          rfl
        · rw [if_neg hk, if_neg hk, List.map_cons, ih]
          rfl

lemma encodeDrain_nofail (fail : DataPoint V → Bool) (hnofail : ∀ p, fail p = false)
    (l : List (DataPoint V)) : encodeDrain fail l = (l, false) := by
  induction l with
  | nil => rfl
  | cons p ps ih =>
    rw [encodeDrain, if_neg (by rw [hnofail p]; exact Bool.false_ne_true), ih]

lemma encodeMergeAux_nil_left (fail : DataPoint V → Bool) (fuel : Nat)
    (ps : List (DataPoint V)) :
    encodeMergeAux fail fuel [] ps = encodeDrain fail ps := by
  cases fuel <;> cases ps <;> rfl

lemma encodeMergeAux_nil_right (fail : DataPoint V → Bool) (fuel : Nat)
    (os : List (DataPoint V)) :
    encodeMergeAux fail fuel os [] = encodeDrain fail os := by
  cases fuel <;> cases os <;> rfl

lemma encodeMergeAux_nofail (fail : DataPoint V → Bool) (hnofail : ∀ p, fail p = false) :
    ∀ (fuel : Nat) (os ps : List (DataPoint V)),
      encodeMergeAux fail fuel os ps
        = (mergeByKeyAux (fun p => p.timestamp) fuel os ps, false) := by
  intro fuel
  induction fuel with
  | zero =>
    intro os ps
    cases os with
    | nil =>
      rw [mergeByKeyAux_nil_left, encodeMergeAux_nil_left]
      exact encodeDrain_nofail fail hnofail ps
    | cons o os' =>
      cases ps with
      | nil =>
        rw [mergeByKeyAux_nil_right, encodeMergeAux_nil_right]
        exact encodeDrain_nofail fail hnofail (o :: os')
      | cons p ps' => rfl
  | succ fuel ih =>
    intro os ps
    cases os with
    | nil =>
      rw [mergeByKeyAux_nil_left, encodeMergeAux_nil_left]
      exact encodeDrain_nofail fail hnofail ps
    | cons o os' =>
      cases ps with
      | nil =>
        rw [mergeByKeyAux_nil_right, encodeMergeAux_nil_right]
        exact encodeDrain_nofail fail hnofail (o :: os')
      | cons p ps' =>
        rw [mergeByKeyAux_succ_cons]
        show (if o.timestamp < p.timestamp then _ else _) = _
        by_cases hk : o.timestamp < p.timestamp
        · rw [if_pos hk, if_pos hk, if_neg (by rw [hnofail o]; exact Bool.false_ne_true), ih]
        · rw [if_neg hk, if_neg hk, if_neg (by rw [hnofail p]; exact Bool.false_ne_true), ih]

end MergeLemmas

/-- C3: with an ascending `points` array and an encoder that does not fail,
`encodeAllPoints` calls `encodePoint` exactly once per point of the multiset
`points ++ outOfOrderPoints`, in ascending timestamp order; tagging each
emitted point with its origin, an out-of-order point emitted before an
in-order point always has a strictly smaller timestamp — i.e. on a tie the
in-order point is emitted first. -/
theorem c3_encodeAllPoints_merge {V : Type} (m : MemoryMetric V)
    (fail : DataPoint V → Bool)
    (hasc : m.points.Pairwise (fun a b => a.timestamp ≤ b.timestamp))
    (hnofail : ∀ p, fail p = false) :
    (encodeAllPointsCalls fail m).2 = false
    ∧ ((encodeAllPointsCalls fail m).1 : Multiset (DataPoint V))
        = ((m.points ++ m.outOfOrderPoints : List (DataPoint V)) : Multiset (DataPoint V))
    ∧ (encodeAllPointsCalls fail m).1.Pairwise (fun a b => a.timestamp ≤ b.timestamp)
    ∧ (taggedTrace m).map Prod.fst = (encodeAllPointsCalls fail m).1
    ∧ (taggedTrace m).Pairwise
        (fun a b => a.2 = false → b.2 = true → a.1.timestamp < b.1.timestamp) := by
  have hcalls : encodeAllPointsCalls fail m
      = (mergeByKeyAux (fun p => p.timestamp)
          ((sortByTs m.outOfOrderPoints).length + m.points.length)
          (sortByTs m.outOfOrderPoints) m.points, false) :=
    encodeMergeAux_nofail fail hnofail _ _ _
  have hperm := mergeByKeyAux_perm (fun p : DataPoint V => p.timestamp)
    ((sortByTs m.outOfOrderPoints).length + m.points.length)
    (sortByTs m.outOfOrderPoints) m.points (le_refl _)
  refine ⟨by rw [hcalls], ?_, ?_, ?_, ?_⟩
  · rw [hcalls]
    show ((mergeByKeyAux _ _ _ _ : List (DataPoint V)) : Multiset (DataPoint V)) = _
    rw [Multiset.coe_eq_coe]
    exact (hperm.trans
      (((sortByTs_perm m.outOfOrderPoints).append_right m.points).trans
        List.perm_append_comm)).trans (List.Perm.refl _)
  · rw [hcalls]
    exact mergeByKeyAux_sorted _ _ _ _ (le_refl _) (sortByTs_sorted _) hasc
  · rw [hcalls]
    show (mergeByKey _ _ _).map Prod.fst = _
    unfold mergeByKey
    rw [mergeByKeyAux_map_fst, List.map_map, List.map_map]
    simp only [List.length_map]
    rw [show (Prod.fst ∘ fun p : DataPoint V => (p, false)) = id from rfl,
      show (Prod.fst ∘ fun p : DataPoint V => (p, true)) = id from rfl,
      List.map_id, List.map_id]
  · unfold taggedTrace mergeByKey
    apply mergeByKeyAux_tie
    · simp
    · intro x hx
      obtain ⟨p, _, rfl⟩ := List.mem_map.mp hx
      rfl
    · intro x hx
      obtain ⟨p, _, rfl⟩ := List.mem_map.mp hx
      rfl
    · rw [List.pairwise_map]
      exact hasc

/-- The concrete series of the repository's own
`Test_memoryMetric_EncodeAllPoints_sorted`: in-order `[1, 3]`, out-of-order
`[4, 2]`. -/
def c3Metric : MemoryMetric Int where
  name := "m1"
  size := 2
  minTimestamp := 1
  maxTimestamp := 3
  points := [⟨1, 1⟩, ⟨3, 1⟩]
  outOfOrderPoints := [⟨4, 1⟩, ⟨2, 1⟩]

/-- Witness for C3: on the repository's own test data, all four points are
emitted, in ascending order `1, 2, 3, 4`, with no error. -/
theorem c3_encodeAllPoints_witness :
    (encodeAllPointsCalls (fun _ => false) c3Metric).2 = false
    ∧ (encodeAllPointsCalls (fun _ => false) c3Metric).1
        = [⟨1, 1⟩, ⟨2, 1⟩, ⟨3, 1⟩, ⟨4, 1⟩]
    ∧ ((encodeAllPointsCalls (fun _ => false) c3Metric).1 : Multiset (DataPoint Int))
        = ((c3Metric.points ++ c3Metric.outOfOrderPoints : List (DataPoint Int)) :
            Multiset (DataPoint Int)) := by
  have h := c3_encodeAllPoints_merge c3Metric (fun _ => false) (by decide) (fun p => rfl)
  exact ⟨h.1, by decide, h.2.1⟩

/-! ## The partition list (C2, C7)

The Go `partitionList` is a pointer structure on the heap.  The heap is
modelled as an arena (`nodes`), a pointer as an index into it, and `nil` as
`none`; `insert` allocates at the end of the arena, exactly like `&partitionNode{...}`. -/

/-- A partition as seen by the list: `samePartitions` compares only
`minTimestamp()`.  `clean()` returns nil for every partition implementation
in the sources (`memoryPartition.clean`, `fakePartition.clean`); its calls
are recorded as events. -/
structure Partition where
  minT : Int
  deriving DecidableEq

/-- `samePartitions` from the sources: `x.minTimestamp() == y.minTimestamp()`. -/
def samePartitions (x y : Partition) : Bool := x.minT == y.minT

/-- `partitionNode`: the partition value and the pointer to the next node
(the `sync.RWMutex` is omitted). -/
structure PartitionNode where
  val : Partition
  next : Option Nat
  deriving DecidableEq

/-- Dereference a node pointer.  Pointers created by the list are always in
range; the default is never reached from a well-formed list. -/
def nodeAtN (nodes : List PartitionNode) (i : Nat) : PartitionNode :=
  (nodes[i]?).getD ⟨⟨0⟩, none⟩

/-- `partitionListImpl`: the atomic size counter, the head and tail
pointers, and the node arena standing for the heap. -/
structure PartitionList where
  numPartitions : Int
  head : Option Nat
  tail : Option Nat
  nodes : List PartitionNode
  deriving DecidableEq

/-- `newPartitionList`: the zero value. -/
def newPartitionList : PartitionList :=
  { numPartitions := 0, head := none, tail := none, nodes := [] }

/-- `partitionList.size`. -/
def PartitionList.size (s : PartitionList) : Int := s.numPartitions

/-- `partitionNode.setNext` on node `i`. -/
def setNext (s : PartitionList) (i : Nat) (nxt : Option Nat) : PartitionList :=
  { s with nodes := s.nodes.set i ⟨(nodeAtN s.nodes i).val, nxt⟩ }

/-- `partitionList.insert`: allocate a node whose `next` is the current
head, make it the head, bump the counter.  The tail pointer is not
touched. -/
def PartitionList.insert (s : PartitionList) (p : Partition) : PartitionList :=
  { s with nodes := s.nodes ++ [⟨p, s.head⟩],
           head := some s.nodes.length,
           numPartitions := s.numPartitions + 1 }

/-- The scan loop of `partitionList.remove`: walk from `cur` with the
previous node in `prev`; on the first match, unlink (head case first, then
tail case, then middle), decrement, and run `clean()` (recorded in the
returned list).  Returns `(state, cleaned, error == nil)`.  `fuel` only
provides structural termination; the arena size always suffices on a
well-formed list. -/
def removeLoop (s : PartitionList) (target : Partition) :
    Nat → Option Nat → Option Nat → PartitionList × List Partition × Bool
  | _, _, none => (s, [], false)
  | 0, _, some _ => (s, [], false)
  | fuel + 1, prev, some cur =>
    if samePartitions (nodeAtN s.nodes cur).val target then
      let nxt := (nodeAtN s.nodes cur).next
      let s' :=
        match prev with
        | none => { s with head := nxt }
        | some pi =>
          match nxt with
          | none => { (setNext s pi none) with tail := some pi }
          | some _ => setNext s pi nxt
      ({ s' with numPartitions := s'.numPartitions - 1 },
       [(nodeAtN s.nodes cur).val], true)
    else
      removeLoop s target fuel (some cur) (nodeAtN s.nodes cur).next

/-- `partitionList.remove`. -/
def PartitionList.remove (s : PartitionList) (target : Partition) :
    PartitionList × List Partition × Bool :=
  if s.size ≤ 0 then (s, [], false)
  else removeLoop s target s.nodes.length none s.head

/-- The scan loop of `partitionList.swap`: on the first match, allocate a
node carrying the new partition and the successor chain, and splice it in
(head case first, then tail case, then middle).  Returns
`(state, error == nil)`. -/
def swapLoop (s : PartitionList) (old new : Partition) :
    Nat → Option Nat → Option Nat → PartitionList × Bool
  | _, _, none => (s, false)
  | 0, _, some _ => (s, false)
  | fuel + 1, prev, some cur =>
    if samePartitions (nodeAtN s.nodes cur).val old then
      let newId := s.nodes.length
      let nxt := (nodeAtN s.nodes cur).next
      let s1 := { s with nodes := s.nodes ++ [⟨new, nxt⟩] }
      match prev with
      | none => ({ s1 with head := some newId }, true)
      | some pi =>
        match nxt with
        | none => ({ (setNext s1 pi (some newId)) with tail := some newId }, true)
        | some _ => (setNext s1 pi (some newId), true)
    else
      swapLoop s old new fuel (some cur) (nodeAtN s.nodes cur).next

/-- `partitionList.swap`. -/
def PartitionList.swap (s : PartitionList) (old new : Partition) :
    PartitionList × Bool :=
  if s.size ≤ 0 then (s, false)
  else swapLoop s old new s.nodes.length none s.head

/-- One list operation, for sequences of mutations (C2). -/
inductive ListOp where
  | insert (p : Partition)
  | remove (p : Partition)
  | swap (old new : Partition)

/-- Apply one operation (dropping returned errors). -/
def applyOp (s : PartitionList) : ListOp → PartitionList
  | .insert p => s.insert p
  | .remove p => (s.remove p).1
  | .swap old new => (s.swap old new).1

/-- Run a sequence of operations from the empty list. -/
def runOps (ops : List ListOp) : PartitionList :=
  ops.foldl applyOp newPartitionList

/-- `chainSeg nodes cur stop ids`: starting at pointer `cur` and following
`next`, one visits exactly the nodes `ids` (all in range) and ends at the
pointer `stop`. -/
def chainSeg (nodes : List PartitionNode) : Option Nat → Option Nat → List Nat → Bool
  | cur, stop, [] => cur == stop
  | some i, stop, j :: rest =>
    i == j && decide (i < nodes.length) && chainSeg nodes (nodeAtN nodes i).next stop rest
  | none, _, _ :: _ => false

/-- The nodes reachable from the head are exactly `ids` (ending at `nil`),
without duplicates. -/
def ChainOk (s : PartitionList) (ids : List Nat) : Prop :=
  chainSeg s.nodes s.head none ids = true ∧ ids.Nodup

section ChainLemmas

lemma nodeAtN_append_left (nodes extra : List PartitionNode) (i : Nat)
    (h : i < nodes.length) : nodeAtN (nodes ++ extra) i = nodeAtN nodes i := by
  unfold nodeAtN
  rw [List.getElem?_append_left h]

lemma nodeAtN_append_self (nodes : List PartitionNode) (nd : PartitionNode) :
    nodeAtN (nodes ++ [nd]) nodes.length = nd := by
  unfold nodeAtN
  rw [List.getElem?_concat_length]
  rfl

lemma nodeAtN_set_same (nodes : List PartitionNode) (j : Nat) (nd : PartitionNode)
    (h : j < nodes.length) : nodeAtN (nodes.set j nd) j = nd := by
  unfold nodeAtN
  rw [List.getElem?_set_self h]
  rfl

lemma nodeAtN_set_ne (nodes : List PartitionNode) (j : Nat) (nd : PartitionNode)
    (i : Nat) (h : j ≠ i) : nodeAtN (nodes.set j nd) i = nodeAtN nodes i := by
  unfold nodeAtN
  rw [List.getElem?_set_ne h]

lemma chainSeg_nil_iff (nodes : List PartitionNode) (cur stop : Option Nat) :
    chainSeg nodes cur stop [] = true ↔ cur = stop := by
  cases cur <;> cases stop <;> simp [chainSeg]

lemma chainSeg_cons_iff (nodes : List PartitionNode) (cur stop : Option Nat)
    (j : Nat) (rest : List Nat) :
    chainSeg nodes cur stop (j :: rest) = true
      ↔ cur = some j ∧ j < nodes.length
          ∧ chainSeg nodes (nodeAtN nodes j).next stop rest = true := by
  cases cur with
  | none => simp [chainSeg]
  | some i =>
    show (i == j && decide (i < nodes.length)
        && chainSeg nodes (nodeAtN nodes i).next stop rest) = true ↔ _
    constructor
    · intro h
      obtain ⟨⟨h1, h2⟩, h3⟩ := by
        have := h
        simp only [Bool.and_eq_true] at this
        exact this
      obtain rfl : i = j := by simpa using h1
      exact ⟨rfl, by simpa using h2, h3⟩
    · rintro ⟨hc, hlen, hseg⟩
      obtain rfl : i = j := by injection hc
      simp only [Bool.and_eq_true]
      exact ⟨⟨by simp, by simpa using hlen⟩, hseg⟩

lemma chainSeg_append_iff (nodes : List PartitionNode) :
    ∀ (xs ys : List Nat) (c1 c3 : Option Nat),
      chainSeg nodes c1 c3 (xs ++ ys) = true
        ↔ ∃ c2, chainSeg nodes c1 c2 xs = true ∧ chainSeg nodes c2 c3 ys = true := by
  intro xs
  induction xs with
  | nil =>
    intro ys c1 c3
    rw [List.nil_append]
    constructor
    · intro h
      exact ⟨c1, (chainSeg_nil_iff _ _ _).mpr rfl, h⟩
    · rintro ⟨c2, h1, h2⟩
      rw [(chainSeg_nil_iff _ _ _).mp h1]
      exact h2
  | cons j rest ih =>
    intro ys c1 c3
    rw [List.cons_append, chainSeg_cons_iff]
    constructor
    · rintro ⟨hc, hlen, hseg⟩
      obtain ⟨c2, h1, h2⟩ := (ih ys _ c3).mp hseg
      exact ⟨c2, (chainSeg_cons_iff _ _ _ _ _).mpr ⟨hc, hlen, h1⟩, h2⟩
    · rintro ⟨c2, h1, h2⟩
      obtain ⟨hc, hlen, h1'⟩ := (chainSeg_cons_iff _ _ _ _ _).mp h1
      exact ⟨hc, hlen, (ih ys _ c3).mpr ⟨c2, h1', h2⟩⟩

lemma chainSeg_bounds (nodes : List PartitionNode) :
    ∀ (ids : List Nat) (cur stop : Option Nat),
      chainSeg nodes cur stop ids = true → ∀ i ∈ ids, i < nodes.length := by
  intro ids
  induction ids with
  | nil => intro cur stop h i hi; simp at hi
  | cons j rest ih =>
    intro cur stop h i hi
    obtain ⟨hc, hlen, hseg⟩ := (chainSeg_cons_iff _ _ _ _ _).mp h
    rcases List.mem_cons.mp hi with rfl | hi'
    · exact hlen
    · exact ih _ _ hseg i hi'

lemma chainSeg_set_notMem (nodes : List PartitionNode) (j : Nat) (nd : PartitionNode) :
    ∀ (ids : List Nat) (cur stop : Option Nat), j ∉ ids →
      chainSeg nodes cur stop ids = true →
      chainSeg (nodes.set j nd) cur stop ids = true := by
  intro ids
  induction ids with
  | nil =>
    intro cur stop hj h
    rw [chainSeg_nil_iff] at h ⊢
    exact h
  | cons i rest ih =>
    intro cur stop hj h
    obtain ⟨hc, hlen, hseg⟩ := (chainSeg_cons_iff _ _ _ _ _).mp h
    have hji : j ≠ i := fun hc' => hj (hc' ▸ List.mem_cons_self _ _)
    refine (chainSeg_cons_iff _ _ _ _ _).mpr ⟨hc, by simpa using hlen, ?_⟩
    rw [nodeAtN_set_ne _ _ _ _ hji]
    exact ih _ _ (fun hm => hj (List.mem_cons_of_mem _ hm)) hseg

lemma chainSeg_arena_append (nodes extra : List PartitionNode) :
    ∀ (ids : List Nat) (cur stop : Option Nat),
      chainSeg nodes cur stop ids = true →
      chainSeg (nodes ++ extra) cur stop ids = true := by
  intro ids
  induction ids with
  | nil =>
    intro cur stop h
    rw [chainSeg_nil_iff] at h ⊢
    exact h
  | cons i rest ih =>
    intro cur stop h
    obtain ⟨hc, hlen, hseg⟩ := (chainSeg_cons_iff _ _ _ _ _).mp h
    refine (chainSeg_cons_iff _ _ _ _ _).mpr ⟨hc, by simp; omega, ?_⟩
    rw [nodeAtN_append_left _ _ _ hlen]
    exact ih _ _ hseg

lemma chainSeg_singleton_iff (nodes : List PartitionNode) (cur stop : Option Nat)
    (j : Nat) :
    chainSeg nodes cur stop [j] = true
      ↔ cur = some j ∧ j < nodes.length ∧ (nodeAtN nodes j).next = stop := by
  rw [chainSeg_cons_iff]
  constructor
  · rintro ⟨h1, h2, h3⟩
    exact ⟨h1, h2, (chainSeg_nil_iff _ _ _).mp h3⟩
  · rintro ⟨h1, h2, h3⟩
    exact ⟨h1, h2, (chainSeg_nil_iff _ _ _).mpr h3⟩

lemma chainSeg_length_le (nodes : List PartitionNode) (ids : List Nat)
    (cur stop : Option Nat) (h : chainSeg nodes cur stop ids = true)
    (hnd : ids.Nodup) : ids.length ≤ nodes.length := by
  have hbound := chainSeg_bounds nodes ids cur stop h
  have hsub : ids.toFinset ⊆ Finset.range nodes.length := by
    intro i hi
    rw [Finset.mem_range]
    exact hbound i (List.mem_toFinset.mp hi)
  calc ids.length = ids.toFinset.card := (List.toFinset_card_of_nodup hnd).symm
    _ ≤ (Finset.range nodes.length).card := Finset.card_le_card hsub
    _ = nodes.length := Finset.card_range _

end ChainLemmas

/-- The pointer to the node scanned just before the match: the last of the
no-match prefix, or the caller's `prev` when the match is immediate. -/
def lastOr (prev : Option Nat) (a : List Nat) : Option Nat :=
  match a.getLast? with
  | none => prev
  | some x => some x

/-- The state `remove` produces once the match is found at node `m` with
predecessor pointer `prev'`. -/
def removeResult (s : PartitionList) (m : Nat) (prev' : Option Nat) : PartitionList :=
  let nxt := (nodeAtN s.nodes m).next
  let s' :=
    match prev' with
    | none => { s with head := nxt }
    | some pi =>
      match nxt with
      | none => { (setNext s pi none) with tail := some pi }
      | some _ => setNext s pi nxt
  { s' with numPartitions := s'.numPartitions - 1 }

section RemoveLemmas

lemma lastOr_cons (prev : Option Nat) (j : Nat) (a' : List Nat) :
    lastOr prev (j :: a') = lastOr (some j) a' := by
  cases a' with
  | nil => rfl
  | cons y ys =>
    unfold lastOr
    rw [List.getLast?_cons_cons]
    cases h : (y :: ys).getLast? with
    | none => simp at h
    | some x => rfl

lemma lastOr_concat (prev : Option Nat) (a₀ : List Nat) (pa : Nat) :
    lastOr prev (a₀ ++ [pa]) = some pa := by
  simp [lastOr, List.getLast?_concat]

lemma chainSeg_none_cur (nodes : List PartitionNode) (ids : List Nat)
    (cur : Option Nat) (h : chainSeg nodes cur none ids = true) : cur = ids.head? := by
  cases ids with
  | nil => exact (chainSeg_nil_iff _ _ _).mp h
  | cons x xs => exact ((chainSeg_cons_iff _ _ _ _ _).mp h).1

lemma removeLoop_noMatch (s : PartitionList) (target : Partition) :
    ∀ (ids : List Nat) (cur prev : Option Nat) (fuel : Nat),
      chainSeg s.nodes cur none ids = true →
      (∀ j ∈ ids, samePartitions (nodeAtN s.nodes j).val target = false) →
      ids.length ≤ fuel →
      removeLoop s target fuel prev cur = (s, [], false) := by
  intro ids
  induction ids with
  | nil =>
    intro cur prev fuel hch hnm hfuel
    obtain rfl : cur = none := (chainSeg_nil_iff _ _ _).mp hch
    cases fuel <;> rfl
  | cons j rest ih =>
    intro cur prev fuel hch hnm hfuel
    obtain ⟨hc, hlen, hseg⟩ := (chainSeg_cons_iff _ _ _ _ _).mp hch
    subst hc
    cases fuel with
    | zero => simp at hfuel
    | succ fuel =>
      show (if samePartitions (nodeAtN s.nodes j).val target = true then _ else _) = _
      rw [if_neg (by rw [hnm j (List.mem_cons_self _ _)]; exact Bool.false_ne_true)]
      exact ih _ (some j) fuel hseg (fun x hx => hnm x (List.mem_cons_of_mem _ hx))
        (by simp at hfuel ⊢; omega)

lemma removeLoop_found (s : PartitionList) (target : Partition) :
    ∀ (a : List Nat) (m : Nat) (b : List Nat) (cur prev : Option Nat) (fuel : Nat),
      chainSeg s.nodes cur none (a ++ m :: b) = true →
      (∀ j ∈ a, samePartitions (nodeAtN s.nodes j).val target = false) →
      samePartitions (nodeAtN s.nodes m).val target = true →
      (a ++ m :: b).length ≤ fuel →
      removeLoop s target fuel prev cur
        = (removeResult s m (lastOr prev a), [(nodeAtN s.nodes m).val], true) := by
  intro a
  induction a with
  | nil =>
    intro m b cur prev fuel hch hnm hm hfuel
    obtain ⟨hc, hlen, hseg⟩ := (chainSeg_cons_iff _ _ _ _ _).mp (by simpa using hch)
    subst hc
    cases fuel with
    | zero => simp at hfuel
    | succ fuel =>
      show (if samePartitions (nodeAtN s.nodes m).val target = true then _ else _) = _
      rw [if_pos hm]
      rfl
  | cons j a' ih =>
    intro m b cur prev fuel hch hnm hm hfuel
    rw [List.cons_append] at hch
    obtain ⟨hc, hlen, hseg⟩ := (chainSeg_cons_iff _ _ _ _ _).mp hch
    subst hc
    cases fuel with
    | zero => simp at hfuel
    | succ fuel =>
      show (if samePartitions (nodeAtN s.nodes j).val target = true then _ else _) = _
      rw [if_neg (by rw [hnm j (List.mem_cons_self _ _)]; exact Bool.false_ne_true)]
      rw [ih m b _ (some j) fuel hseg (fun x hx => hnm x (List.mem_cons_of_mem _ hx)) hm
        (by simp at hfuel ⊢; omega)]
      rw [lastOr_cons]

lemma exists_first_match (P : Nat → Prop) :
    ∀ (ids : List Nat), (∃ i ∈ ids, P i) →
      ∃ a m b, ids = a ++ m :: b ∧ (∀ j ∈ a, ¬ P j) ∧ P m := by
  intro ids
  induction ids with
  | nil =>
    rintro ⟨i, hi, _⟩
    simp at hi
  | cons x xs ih =>
    intro hex
    by_cases hx : P x
    · exact ⟨[], x, xs, rfl, by simp, hx⟩
    · obtain ⟨i, hi, hPi⟩ := hex
      rcases List.mem_cons.mp hi with rfl | hi'
      · exact absurd hPi hx
      · obtain ⟨a, m, b, heq, hna, hm⟩ := ih ⟨i, hi', hPi⟩
        refine ⟨x :: a, m, b, by rw [List.cons_append, heq], ?_, hm⟩
        intro j hj
        rcases List.mem_cons.mp hj with rfl | hj'
        · exact hx
        · exact hna j hj'

lemma chainSeg_cur_of_ne_nil (nodes : List PartitionNode) (ids : List Nat)
    (cur stop : Option Nat) (h : chainSeg nodes cur stop ids = true)
    (hne : ids ≠ []) : cur = ids.head? := by
  cases ids with
  | nil => exact absurd rfl hne
  | cons x xs => exact ((chainSeg_cons_iff _ _ _ _ _).mp h).1

lemma removeResult_prev_none (s : PartitionList) (m : Nat) :
    removeResult s m none
      = { s with head := (nodeAtN s.nodes m).next,
                 numPartitions := s.numPartitions - 1 } := rfl

lemma removeResult_prev_some_next_none (s : PartitionList) (m pi : Nat)
    (h : (nodeAtN s.nodes m).next = none) :
    removeResult s m (some pi)
      = { setNext s pi none with
          tail := some pi
          numPartitions := s.numPartitions - 1 } := by
  simp only [removeResult, h]
  rfl

lemma removeResult_prev_some_next_some (s : PartitionList) (m pi nx : Nat)
    (h : (nodeAtN s.nodes m).next = some nx) :
    removeResult s m (some pi)
      = { setNext s pi (some nx) with
          numPartitions := s.numPartitions - 1 } := by
  simp only [removeResult, h]
  rfl

/-- What the state looks like after `remove` unlinks the first match `m`,
with no-match prefix `a` and suffix `b`: the counter drops by one, the head
is the head of `a ++ b`, the reachable chain is exactly `a ++ b`, and the
tail pointer moves (to the predecessor) only when the match had a
predecessor but no successor. -/
lemma removeResult_spec (s : PartitionList) (a : List Nat) (m : Nat) (b : List Nat)
    (hch : chainSeg s.nodes s.head none (a ++ m :: b) = true)
    (hnd : (a ++ m :: b).Nodup) :
    (removeResult s m (lastOr none a)).numPartitions = s.numPartitions - 1
    ∧ (removeResult s m (lastOr none a)).head = (a ++ b).head?
    ∧ chainSeg (removeResult s m (lastOr none a)).nodes
        (removeResult s m (lastOr none a)).head none (a ++ b) = true
    ∧ (a ++ b).Nodup
    ∧ (removeResult s m (lastOr none a)).tail
        = (if a = [] then s.tail else if b = [] then a.getLast? else s.tail) := by
  have hndab : (a ++ b).Nodup :=
    hnd.sublist (List.Sublist.append_left (List.sublist_cons_self m b) a)
  rcases a.eq_nil_or_concat with rfl | ⟨a₀, pa, rfl⟩
  · obtain ⟨hc, hmlen, hsegb⟩ := (chainSeg_cons_iff _ _ _ _ _).mp (by simpa using hch)
    have hnxt : (nodeAtN s.nodes m).next = b.head? := chainSeg_none_cur _ _ _ hsegb
    rw [show lastOr none ([] : List Nat) = none from rfl, removeResult_prev_none]
    refine ⟨rfl, by simpa using hnxt, ?_, hndab, by simp⟩
    show chainSeg s.nodes (nodeAtN s.nodes m).next none ([] ++ b) = true
    simpa using hsegb
  · rw [List.concat_eq_append] at hch hnd hndab ⊢
    rw [lastOr_concat]
    obtain ⟨c2, hseg1, hseg2⟩ := (chainSeg_append_iff _ _ _ _ _).mp hch
    obtain ⟨hc2, hmlen, hsegb⟩ := (chainSeg_cons_iff _ _ _ _ _).mp hseg2
    subst hc2
    obtain ⟨c1, hseg0, hsegpa⟩ := (chainSeg_append_iff _ _ _ _ _).mp hseg1
    obtain ⟨hc1, hpalen, hpanext⟩ := (chainSeg_singleton_iff _ _ _ _).mp hsegpa
    subst hc1
    have hd := List.nodup_append.mp hnd
    have hpa_a0 : pa ∉ a₀ := by
      intro hc
      exact (List.nodup_append.mp hd.1).2.2 hc (by simp)
    have hpam_b : pa ∉ m :: b := by
      intro hc
      exact hd.2.2 (by simp) hc
    have hpa_b : pa ∉ b := fun hc => hpam_b (List.mem_cons_of_mem _ hc)
    have hnxt : (nodeAtN s.nodes m).next = b.head? := chainSeg_none_cur _ _ _ hsegb
    cases b with
    | nil =>
      have hnxt' : (nodeAtN s.nodes m).next = none := by simpa using hnxt
      rw [removeResult_prev_some_next_none s m pa hnxt']
      refine ⟨rfl, ?_, ?_, hndab, ?_⟩
      · have h1 : s.head = ((a₀ ++ [pa]) ++ ([] : List Nat)).head? := by
          rw [List.append_nil]
          exact chainSeg_cur_of_ne_nil _ _ _ _ hseg1 (by simp)
        exact h1
      · have h2 : chainSeg (s.nodes.set pa ⟨(nodeAtN s.nodes pa).val, none⟩)
            s.head none ((a₀ ++ [pa]) ++ ([] : List Nat)) = true := by
          rw [List.append_nil]
          apply (chainSeg_append_iff _ _ _ _ _).mpr
          refine ⟨some pa, chainSeg_set_notMem _ _ _ _ _ _ hpa_a0 hseg0, ?_⟩
          apply (chainSeg_singleton_iff _ _ _ _).mpr
          refine ⟨rfl, by simpa using hpalen, ?_⟩
          rw [nodeAtN_set_same _ _ _ hpalen]
        exact h2
      · have h3 : some pa
            = (if (a₀ ++ [pa] : List Nat) = [] then s.tail
               else if ([] : List Nat) = [] then (a₀ ++ [pa]).getLast? else s.tail) := by
          rw [if_neg (by simp), if_pos rfl, List.getLast?_concat]
        exact h3
    | cons x b' =>
      have hnxt' : (nodeAtN s.nodes m).next = some x := by simpa using hnxt
      rw [removeResult_prev_some_next_some s m pa x hnxt']
      refine ⟨rfl, ?_, ?_, hndab, ?_⟩
      · have h1 : s.head = ((a₀ ++ [pa]) ++ x :: b').head? := by
          rw [List.head?_append_of_ne_nil _ (by simp)]
          exact chainSeg_cur_of_ne_nil _ _ _ _ hseg1 (by simp)
        exact h1
      · have h2 : chainSeg (s.nodes.set pa ⟨(nodeAtN s.nodes pa).val, some x⟩)
            s.head none ((a₀ ++ [pa]) ++ x :: b') = true := by
          apply (chainSeg_append_iff _ _ _ _ _).mpr
          refine ⟨some x, ?_, ?_⟩
          · apply (chainSeg_append_iff _ _ _ _ _).mpr
            refine ⟨some pa, chainSeg_set_notMem _ _ _ _ _ _ hpa_a0 hseg0, ?_⟩
            apply (chainSeg_singleton_iff _ _ _ _).mpr
            refine ⟨rfl, by simpa using hpalen, ?_⟩
            rw [nodeAtN_set_same _ _ _ hpalen]
          · exact chainSeg_set_notMem _ _ _ _ _ _ hpa_b (hnxt' ▸ hsegb)
        exact h2
      · have h3 : s.tail
            = (if (a₀ ++ [pa] : List Nat) = [] then s.tail
               else if (x :: b') = ([] : List Nat) then (a₀ ++ [pa]).getLast? else s.tail) := by
          rw [if_neg (by simp), if_neg (by simp)]
        exact h3

end RemoveLemmas

/-- The state `swap` produces once the match is found at node `m` with
predecessor pointer `prev'`: a fresh node carrying the new partition and
`m`'s successor chain is spliced in. -/
def swapResult (s : PartitionList) (m : Nat) (newP : Partition) (prev' : Option Nat) :
    PartitionList :=
  let newId := s.nodes.length
  let nxt := (nodeAtN s.nodes m).next
  let s1 := { s with nodes := s.nodes ++ [⟨newP, nxt⟩] }
  match prev' with
  | none => { s1 with head := some newId }
  | some pi =>
    match nxt with
    | none => { (setNext s1 pi (some newId)) with tail := some newId }
    | some _ => setNext s1 pi (some newId)

section SwapLemmas

lemma swapLoop_noMatch (s : PartitionList) (old new : Partition) :
    ∀ (ids : List Nat) (cur prev : Option Nat) (fuel : Nat),
      chainSeg s.nodes cur none ids = true →
      (∀ j ∈ ids, samePartitions (nodeAtN s.nodes j).val old = false) →
      ids.length ≤ fuel →
      swapLoop s old new fuel prev cur = (s, false) := by
  intro ids
  induction ids with
  | nil =>
    intro cur prev fuel hch hnm hfuel
    obtain rfl : cur = none := (chainSeg_nil_iff _ _ _).mp hch
    cases fuel <;> rfl
  | cons j rest ih =>
    intro cur prev fuel hch hnm hfuel
    obtain ⟨hc, hlen, hseg⟩ := (chainSeg_cons_iff _ _ _ _ _).mp hch
    subst hc
    cases fuel with
    | zero => simp at hfuel
    | succ fuel =>
      show (if samePartitions (nodeAtN s.nodes j).val old = true then _ else _) = _
      rw [if_neg (by rw [hnm j (List.mem_cons_self _ _)]; exact Bool.false_ne_true)]
      exact ih _ (some j) fuel hseg (fun x hx => hnm x (List.mem_cons_of_mem _ hx))
        (by simp at hfuel ⊢; omega)

lemma swapResult_prev_none (s : PartitionList) (m : Nat) (newP : Partition) :
    swapResult s m newP none
      = { s with nodes := s.nodes ++ [⟨newP, (nodeAtN s.nodes m).next⟩],
                 head := some s.nodes.length } := rfl

lemma swapResult_prev_some_next_none (s : PartitionList) (m pi : Nat) (newP : Partition)
    (h : (nodeAtN s.nodes m).next = none) :
    swapResult s m newP (some pi)
      = { setNext { s with nodes := s.nodes ++ [⟨newP, none⟩] } pi (some s.nodes.length) with
          tail := some s.nodes.length } := by
  simp only [swapResult, h]

lemma swapResult_prev_some_next_some (s : PartitionList) (m pi nx : Nat) (newP : Partition)
    (h : (nodeAtN s.nodes m).next = some nx) :
    swapResult s m newP (some pi)
      = setNext { s with nodes := s.nodes ++ [⟨newP, some nx⟩] } pi (some s.nodes.length) := by
  simp only [swapResult, h]

lemma swapLoop_found (s : PartitionList) (old new : Partition) :
    ∀ (a : List Nat) (m : Nat) (b : List Nat) (cur prev : Option Nat) (fuel : Nat),
      chainSeg s.nodes cur none (a ++ m :: b) = true →
      (∀ j ∈ a, samePartitions (nodeAtN s.nodes j).val old = false) →
      samePartitions (nodeAtN s.nodes m).val old = true →
      (a ++ m :: b).length ≤ fuel →
      swapLoop s old new fuel prev cur
        = (swapResult s m new (lastOr prev a), true) := by
  intro a
  induction a with
  | nil =>
    intro m b cur prev fuel hch hnm hm hfuel
    obtain ⟨hc, hlen, hseg⟩ := (chainSeg_cons_iff _ _ _ _ _).mp (by simpa using hch)
    subst hc
    cases fuel with
    | zero => simp at hfuel
    | succ fuel =>
      show (if samePartitions (nodeAtN s.nodes m).val old = true then _ else _) = _
      rw [if_pos hm]
      cases prev with
      | none => rfl
      | some pi =>
        have hl : lastOr (some pi) ([] : List Nat) = some pi := rfl
        cases hn : (nodeAtN s.nodes m).next with
        | none =>
          rw [hl, swapResult_prev_some_next_none s m pi new hn]
        | some nx =>
          rw [hl, swapResult_prev_some_next_some s m pi nx new hn]
  | cons j a' ih =>
    intro m b cur prev fuel hch hnm hm hfuel
    rw [List.cons_append] at hch
    obtain ⟨hc, hlen, hseg⟩ := (chainSeg_cons_iff _ _ _ _ _).mp hch
    subst hc
    cases fuel with
    | zero => simp at hfuel
    | succ fuel =>
      show (if samePartitions (nodeAtN s.nodes j).val old = true then _ else _) = _
      rw [if_neg (by rw [hnm j (List.mem_cons_self _ _)]; exact Bool.false_ne_true)]
      rw [ih m b _ (some j) fuel hseg (fun x hx => hnm x (List.mem_cons_of_mem _ hx)) hm
        (by simp at hfuel ⊢; omega)]
      rw [lastOr_cons]

/-- The state after `swap` splices the fresh node over the first match `m`:
the reachable chain is `a ++ newId :: b` with `newId` the fresh arena slot,
the head moves only when the match was the head, and the counter is
untouched. -/
lemma swapResult_spec (s : PartitionList) (a : List Nat) (m : Nat) (b : List Nat)
    (newP : Partition)
    (hch : chainSeg s.nodes s.head none (a ++ m :: b) = true)
    (hnd : (a ++ m :: b).Nodup) :
    chainSeg (swapResult s m newP (lastOr none a)).nodes
        (swapResult s m newP (lastOr none a)).head none (a ++ s.nodes.length :: b) = true
    ∧ (a ++ s.nodes.length :: b).Nodup
    ∧ (swapResult s m newP (lastOr none a)).numPartitions = s.numPartitions := by
  have hbnd := chainSeg_bounds s.nodes (a ++ m :: b) _ _ hch
  have hLa : s.nodes.length ∉ a := fun hc =>
    absurd (hbnd _ (List.mem_append_left _ hc)) (lt_irrefl _)
  have hLb : s.nodes.length ∉ b := fun hc =>
    absurd (hbnd _ (List.mem_append_right _ (List.mem_cons_of_mem _ hc))) (lt_irrefl _)
  have hndab : (a ++ b).Nodup :=
    hnd.sublist (List.Sublist.append_left (List.sublist_cons_self m b) a)
  have hndL : (a ++ s.nodes.length :: b).Nodup := by
    rw [List.nodup_middle]
    exact List.nodup_cons.mpr ⟨by simp [hLa, hLb], hndab⟩
  rcases a.eq_nil_or_concat with rfl | ⟨a₀, pa, rfl⟩
  · obtain ⟨hc, hmlen, hsegb⟩ := (chainSeg_cons_iff _ _ _ _ _).mp (by simpa using hch)
    rw [show lastOr none ([] : List Nat) = none from rfl, swapResult_prev_none]
    refine ⟨?_, hndL, rfl⟩
    have h2 : chainSeg (s.nodes ++ [⟨newP, (nodeAtN s.nodes m).next⟩])
        (some s.nodes.length) none (([] : List Nat) ++ s.nodes.length :: b) = true := by
      rw [List.nil_append]
      apply (chainSeg_cons_iff _ _ _ _ _).mpr
      refine ⟨rfl, by simp, ?_⟩
      rw [nodeAtN_append_self]
      exact chainSeg_arena_append _ _ _ _ _ hsegb
    exact h2
  · rw [List.concat_eq_append] at hch hnd hndab hndL hLa ⊢
    rw [lastOr_concat]
    obtain ⟨c2, hseg1, hseg2⟩ := (chainSeg_append_iff _ _ _ _ _).mp hch
    obtain ⟨hc2, hmlen, hsegb⟩ := (chainSeg_cons_iff _ _ _ _ _).mp hseg2
    subst hc2
    obtain ⟨c1, hseg0, hsegpa⟩ := (chainSeg_append_iff _ _ _ _ _).mp hseg1
    obtain ⟨hc1, hpalen, hpanext⟩ := (chainSeg_singleton_iff _ _ _ _).mp hsegpa
    subst hc1
    have hd := List.nodup_append.mp hnd
    have hpa_a0 : pa ∉ a₀ := by
      intro hc
      exact (List.nodup_append.mp hd.1).2.2 hc (by simp)
    have hpam_b : pa ∉ m :: b := by
      intro hc
      exact hd.2.2 (by simp) hc
    have hpa_b : pa ∉ b := fun hc => hpam_b (List.mem_cons_of_mem _ hc)
    have hnxt : (nodeAtN s.nodes m).next = b.head? := chainSeg_none_cur _ _ _ hsegb
    have hpaL : pa ≠ s.nodes.length := fun hc => absurd (hc ▸ hpalen) (lt_irrefl _)
    have hchain : ∀ nxt0 : Option Nat, (nodeAtN s.nodes m).next = nxt0 →
        chainSeg
          ((s.nodes ++ [(⟨newP, nxt0⟩ : PartitionNode)]).set pa
            (⟨(nodeAtN (s.nodes ++ [(⟨newP, nxt0⟩ : PartitionNode)]) pa).val,
              some s.nodes.length⟩ : PartitionNode))
          s.head none ((a₀ ++ [pa]) ++ s.nodes.length :: b) = true := by
      intro nxt0 hnxt0
      apply (chainSeg_append_iff _ _ _ _ _).mpr
      refine ⟨some s.nodes.length, ?_, ?_⟩
      · apply (chainSeg_append_iff _ _ _ _ _).mpr
        refine ⟨some pa, ?_, ?_⟩
        · exact chainSeg_set_notMem _ _ _ _ _ _ hpa_a0
            (chainSeg_arena_append _ _ _ _ _ hseg0)
        · apply (chainSeg_singleton_iff _ _ _ _).mpr
          refine ⟨rfl, by simp [List.length_set]; omega, ?_⟩
          rw [nodeAtN_set_same]
          simp [List.length_append]; omega
      · apply (chainSeg_cons_iff _ _ _ _ _).mpr
        refine ⟨rfl, by simp [List.length_set], ?_⟩
        rw [nodeAtN_set_ne _ _ _ _ hpaL, nodeAtN_append_self]
        exact chainSeg_set_notMem _ _ _ _ _ _ hpa_b
          (chainSeg_arena_append _ _ _ _ _ (hnxt0 ▸ hsegb))
    cases b with
    | nil =>
      have hnxt' : (nodeAtN s.nodes m).next = none := by simpa using hnxt
      rw [swapResult_prev_some_next_none s m pa newP hnxt']
      exact ⟨hchain none hnxt', hndL, rfl⟩
    | cons x b' =>
      have hnxt' : (nodeAtN s.nodes m).next = some x := by simpa using hnxt
      rw [swapResult_prev_some_next_some s m pa x newP hnxt']
      exact ⟨hchain (some x) hnxt', hndL, rfl⟩

end SwapLemmas

section BoolHelpers

lemma bool_ne_false (b : Bool) (h : b ≠ false) : b = true := by
  cases b
  · exact absurd rfl h
  · rfl

lemma bool_not_true (b : Bool) (h : ¬ b = true) : b = false := by
  cases b
  · rfl
  · exact absurd rfl h

end BoolHelpers

/-- C7: `partitionList.remove(target)` errors exactly when the list is empty
or no reachable node's partition has the target's `minTimestamp`; a
not-found failure leaves the list unchanged and cleans nothing; on success
the first matching node is unlinked — the counter drops by one, the head
advances past the node when it was the head, the tail moves back to the
predecessor only when the matched node had a predecessor but no successor
(so the tail pointer is NOT cleared when the matched node was both head and
tail) — and exactly that node's partition is cleaned (every `clean` in the
sources returns nil, so cleaning is modelled as infallible). -/
theorem c7_remove_spec (s : PartitionList) (ids : List Nat) (target : Partition)
    (hch : chainSeg s.nodes s.head none ids = true)
    (hnd : ids.Nodup)
    (hnum : s.numPartitions = (ids.length : Int)) :
    ((s.remove target).2.2 = false ↔
       (ids = [] ∨ ∀ j ∈ ids, samePartitions (nodeAtN s.nodes j).val target = false))
    ∧ ((s.remove target).2.2 = false →
        (s.remove target).1 = s ∧ (s.remove target).2.1 = [])
    ∧ (∀ a m b, ids = a ++ m :: b →
        (∀ j ∈ a, samePartitions (nodeAtN s.nodes j).val target = false) →
        samePartitions (nodeAtN s.nodes m).val target = true →
        (s.remove target).2.2 = true
        ∧ (s.remove target).2.1 = [(nodeAtN s.nodes m).val]
        ∧ (s.remove target).1.numPartitions = s.numPartitions - 1
        ∧ (s.remove target).1.head = (a ++ b).head?
        ∧ chainSeg (s.remove target).1.nodes (s.remove target).1.head none (a ++ b) = true
        ∧ (s.remove target).1.tail
            = (if a = [] then s.tail else if b = [] then a.getLast? else s.tail)) := by
  by_cases hids : ids = []
  · subst hids
    have hsz0 : s.size ≤ 0 := by
      unfold PartitionList.size
      rw [hnum]
      simp
    have hrem : s.remove target = (s, [], false) := by
      unfold PartitionList.remove
      rw [if_pos hsz0]
    rw [hrem]
    refine ⟨⟨fun _ => Or.inl rfl, fun _ => rfl⟩, fun _ => ⟨rfl, rfl⟩, ?_⟩
    intro a m b heq hpre hm
    exact absurd heq (by simp)
  · have hpos : 0 < ids.length := List.length_pos.mpr hids
    have hsz : ¬ (s.size ≤ 0) := by
      unfold PartitionList.size
      rw [hnum]
      omega
    have hrem : s.remove target = removeLoop s target s.nodes.length none s.head := by
      unfold PartitionList.remove
      rw [if_neg hsz]
    have hfuel : ids.length ≤ s.nodes.length := chainSeg_length_le _ _ _ _ hch hnd
    by_cases hmat : ∀ j ∈ ids, samePartitions (nodeAtN s.nodes j).val target = false
    · have hloop := removeLoop_noMatch s target ids s.head none s.nodes.length hch hmat hfuel
      refine ⟨?_, ?_, ?_⟩
      · rw [hrem, hloop]
        exact ⟨fun _ => Or.inr hmat, fun _ => rfl⟩
      · rw [hrem, hloop]
        exact fun _ => ⟨rfl, rfl⟩
      · intro a m b heq hpre hm
        have hmem : m ∈ ids := heq.symm ▸ List.mem_append_right a (List.mem_cons_self m b)
        rw [hmat m hmem] at hm
        exact absurd hm Bool.false_ne_true
    · push_neg at hmat
      obtain ⟨i, hi, hPi⟩ := hmat
      have hPi' : samePartitions (nodeAtN s.nodes i).val target = true :=
        bool_ne_false _ hPi
      obtain ⟨a0, m0, b0, heq0, hna0, hm0⟩ :=
        exists_first_match (fun j => samePartitions (nodeAtN s.nodes j).val target = true)
          ids ⟨i, hi, hPi'⟩
      have hna0' : ∀ j ∈ a0, samePartitions (nodeAtN s.nodes j).val target = false :=
        fun j hj => bool_not_true _ (hna0 j hj)
      have hloop := removeLoop_found s target a0 m0 b0 s.head none s.nodes.length
        (heq0 ▸ hch) hna0' hm0 (heq0 ▸ hfuel)
      refine ⟨?_, ?_, ?_⟩
      · rw [hrem, hloop]
        constructor
        · intro h
          exact absurd h (by simp)
        · intro h
          rcases h with h | h
          · exact absurd h hids
          · have hmem : m0 ∈ ids :=
              heq0.symm ▸ List.mem_append_right a0 (List.mem_cons_self m0 b0)
            rw [h m0 hmem] at hm0
            exact absurd hm0 Bool.false_ne_true
      · rw [hrem, hloop]
        intro h
        exact absurd h (by simp)
      · intro a m b heq hpre hm
        have hloop' := removeLoop_found s target a m b s.head none s.nodes.length
          (heq ▸ hch) hpre hm (heq ▸ hfuel)
        have hspec := removeResult_spec s a m b (heq ▸ hch) (heq ▸ hnd)
        rw [hrem, hloop']
        exact ⟨rfl, rfl, hspec.1, hspec.2.1, hspec.2.2.1, hspec.2.2.2.2⟩

/-- A two-node list built by two inserts: head is node 1 (partition 2),
its successor node 0 (partition 1). -/
def c7S : PartitionList := (newPartitionList.insert ⟨1⟩).insert ⟨2⟩

/-- Concrete instantiation of the `remove` specification: removing the
second (last) node of a two-node list succeeds, cleans exactly that
partition, decrements the counter, and moves the tail back to the
predecessor. -/
theorem c7_remove_witness :
    (c7S.remove ⟨1⟩).2.2 = true
    ∧ (c7S.remove ⟨1⟩).2.1 = [⟨1⟩]
    ∧ (c7S.remove ⟨1⟩).1.numPartitions = 1
    ∧ (c7S.remove ⟨1⟩).1.tail = some 1 := by
  have h := c7_remove_spec c7S [1, 0] (⟨1⟩ : Partition) (by decide) (by decide) (by decide)
  have h3 := h.2.2 [1] 0 [] rfl (by decide) (by decide)
  exact ⟨h3.1, h3.2.1.trans (by decide), h3.2.2.1.trans (by decide),
    h3.2.2.2.2.2.trans (by decide)⟩

/-- A one-node list whose tail points at the sole node, as the repo's tests
build it. -/
def c7Bad : PartitionList :=
  { numPartitions := 1, head := some 0, tail := some 0, nodes := [⟨⟨5⟩, none⟩] }

/-- Removing a node that is both head and tail takes the head branch of the
unlink switch: the head is cleared but the tail pointer is left pointing at
the removed node, refuting "moving tail back if it was the tail". -/
theorem c7_counterexample :
    (c7Bad.remove ⟨5⟩).2.2 = true
    ∧ (c7Bad.remove ⟨5⟩).1.head = none
    ∧ (c7Bad.remove ⟨5⟩).1.numPartitions = 0
    ∧ (c7Bad.remove ⟨5⟩).1.tail = some 0 := by decide

/-- The linked-list representation invariant that `insert`, `remove`, and
`swap` preserve: some duplicate-free `ids` lists the nodes reachable from
the head, and the counter equals its length. -/
def Inv (s : PartitionList) : Prop :=
  ∃ ids : List Nat, chainSeg s.nodes s.head none ids = true ∧ ids.Nodup
    ∧ s.numPartitions = (ids.length : Int)

section InvLemmas

lemma inv_new : Inv newPartitionList := ⟨[], rfl, List.nodup_nil, rfl⟩

lemma inv_insert (s : PartitionList) (p : Partition) (h : Inv s) : Inv (s.insert p) := by
  obtain ⟨ids, hch, hnd, hnum⟩ := h
  refine ⟨s.nodes.length :: ids, ?_, ?_, ?_⟩
  · have h1 : chainSeg (s.nodes ++ [(⟨p, s.head⟩ : PartitionNode)])
        (some s.nodes.length) none (s.nodes.length :: ids) = true := by
      apply (chainSeg_cons_iff _ _ _ _ _).mpr
      refine ⟨rfl, by simp, ?_⟩
      rw [nodeAtN_append_self]
      exact chainSeg_arena_append _ _ _ _ _ hch
    exact h1
  · exact List.nodup_cons.mpr
      ⟨fun hc => absurd (chainSeg_bounds _ _ _ _ hch _ hc) (lt_irrefl _), hnd⟩
  · have h3 : s.numPartitions + 1 = ((ids.length + 1 : Nat) : Int) := by
      rw [hnum]
      push_cast
      ring
    exact h3

lemma inv_remove (s : PartitionList) (t : Partition) (h : Inv s) : Inv (s.remove t).1 := by
  obtain ⟨ids, hch, hnd, hnum⟩ := h
  by_cases hsz : s.size ≤ 0
  · have hrem : s.remove t = (s, [], false) := by
      unfold PartitionList.remove
      rw [if_pos hsz]
    rw [hrem]
    exact ⟨ids, hch, hnd, hnum⟩
  · have hrem : s.remove t = removeLoop s t s.nodes.length none s.head := by
      unfold PartitionList.remove
      rw [if_neg hsz]
    have hfuel : ids.length ≤ s.nodes.length := chainSeg_length_le _ _ _ _ hch hnd
    by_cases hmat : ∀ j ∈ ids, samePartitions (nodeAtN s.nodes j).val t = false
    · rw [hrem, removeLoop_noMatch s t ids s.head none s.nodes.length hch hmat hfuel]
      exact ⟨ids, hch, hnd, hnum⟩
    · push_neg at hmat
      obtain ⟨i, hi, hPi⟩ := hmat
      obtain ⟨a, m, b, heq, hna, hm⟩ :=
        exists_first_match (fun j => samePartitions (nodeAtN s.nodes j).val t = true)
          ids ⟨i, hi, bool_ne_false _ hPi⟩
      have hna' : ∀ j ∈ a, samePartitions (nodeAtN s.nodes j).val t = false :=
        fun j hj => bool_not_true _ (hna j hj)
      rw [hrem, removeLoop_found s t a m b s.head none s.nodes.length
        (heq ▸ hch) hna' hm (heq ▸ hfuel)]
      have hspec := removeResult_spec s a m b (heq ▸ hch) (heq ▸ hnd)
      refine ⟨a ++ b, hspec.2.2.1, hspec.2.2.2.1, ?_⟩
      have hlen : s.numPartitions - 1 = ((a ++ b).length : Nat) := by
        rw [hnum, heq]
        simp only [List.length_append, List.length_cons]
        push_cast
        ring
      exact hspec.1.trans hlen

lemma inv_swap (s : PartitionList) (old new : Partition) (h : Inv s) :
    Inv (s.swap old new).1 := by
  obtain ⟨ids, hch, hnd, hnum⟩ := h
  by_cases hsz : s.size ≤ 0
  · have hrem : s.swap old new = (s, false) := by
      unfold PartitionList.swap
      rw [if_pos hsz]
    rw [hrem]
    exact ⟨ids, hch, hnd, hnum⟩
  · have hrem : s.swap old new = swapLoop s old new s.nodes.length none s.head := by
      unfold PartitionList.swap
      rw [if_neg hsz]
    have hfuel : ids.length ≤ s.nodes.length := chainSeg_length_le _ _ _ _ hch hnd
    by_cases hmat : ∀ j ∈ ids, samePartitions (nodeAtN s.nodes j).val old = false
    · rw [hrem, swapLoop_noMatch s old new ids s.head none s.nodes.length hch hmat hfuel]
      exact ⟨ids, hch, hnd, hnum⟩
    · push_neg at hmat
      obtain ⟨i, hi, hPi⟩ := hmat
      obtain ⟨a, m, b, heq, hna, hm⟩ :=
        exists_first_match (fun j => samePartitions (nodeAtN s.nodes j).val old = true)
          ids ⟨i, hi, bool_ne_false _ hPi⟩
      have hna' : ∀ j ∈ a, samePartitions (nodeAtN s.nodes j).val old = false :=
        fun j hj => bool_not_true _ (hna j hj)
      rw [hrem, swapLoop_found s old new a m b s.head none s.nodes.length
        (heq ▸ hch) hna' hm (heq ▸ hfuel)]
      have hspec := swapResult_spec s a m b new (heq ▸ hch) (heq ▸ hnd)
      refine ⟨a ++ s.nodes.length :: b, hspec.1, hspec.2.1, ?_⟩
      have hlen : s.numPartitions = ((a ++ s.nodes.length :: b).length : Nat) := by
        rw [hnum, heq]
        simp only [List.length_append, List.length_cons]
      exact hspec.2.2.trans hlen

end InvLemmas

/-- C2: after any sequence of `insert`/`remove`/`swap` operations on an
initially empty partition list, the counter equals the number of nodes
reachable from the head (which carry no duplicates), and `head == nil`
is equivalent to `size == 0`.  The tail pointer satisfies no such
invariant: `insert` never writes it (see the counterexample). -/
theorem c2_list_invariant (ops : List ListOp) :
    ∃ ids : List Nat,
      chainSeg (runOps ops).nodes (runOps ops).head none ids = true
      ∧ ids.Nodup
      ∧ (runOps ops).numPartitions = (ids.length : Int)
      ∧ ((runOps ops).head = none ↔ (runOps ops).numPartitions = 0) := by
  have key : ∀ (l : List ListOp) (s : PartitionList), Inv s → Inv (l.foldl applyOp s) := by
    intro l
    induction l with
    | nil => intro s h; exact h
    | cons op rest ih =>
      intro s h
      rw [List.foldl_cons]
      apply ih
      cases op with
      | insert p => exact inv_insert s p h
      | remove p => exact inv_remove s p h
      | swap old new => exact inv_swap s old new h
  obtain ⟨ids, hch, hnd, hnum⟩ := key ops newPartitionList inv_new
  have hnum' : (runOps ops).numPartitions = (ids.length : Int) := hnum
  refine ⟨ids, hch, hnd, hnum', ?_⟩
  have hhead : (runOps ops).head = ids.head? := chainSeg_none_cur _ _ _ hch
  constructor
  · intro h
    rw [hhead] at h
    have hids : ids = [] := by
      cases ids with
      | nil => rfl
      | cons x xs => simp at h
    rw [hnum', hids]
    rfl
  · intro h
    rw [hnum'] at h
    have hlen : ids.length = 0 := by exact_mod_cast h
    rw [hhead, List.length_eq_zero.mp hlen]
    rfl

/-- After a single insert into the empty list, node 0 is reachable (and is
the last reachable node) and the size is 1, yet the tail pointer is still
nil: `insert` never writes `tail`, refuting both "tail is the last
reachable node" and the `head == nil ⇔ tail == nil ⇔ size == 0`
equivalence. -/
theorem c2_counterexample :
    (runOps [ListOp.insert ⟨1⟩]).numPartitions = 1
    ∧ (runOps [ListOp.insert ⟨1⟩]).head = some 0
    ∧ chainSeg (runOps [ListOp.insert ⟨1⟩]).nodes
        (runOps [ListOp.insert ⟨1⟩]).head none [0] = true
    ∧ (runOps [ListOp.insert ⟨1⟩]).tail = none := by decide

end TStorage
